import Mathlib

/-!
Verification development for the PhisGuard_414 phishing-detector core:
a shallow embedding of `crypto_utils.py` (canonical payload serialization,
HMAC + RSA dual signing, RSA verification) and `feature_extractor.py`
(URL normalization, the 86-slot feature vector, and the cache-first
enrichment-resolution policy), together with theorems settling the
specification claims about them.

Python strings are modelled as `List Char` (`Str`); machine integers as
`Int`/`Nat`; Python floats as `ℚ`, with the transcendental `math.log2`
abstracted as an explicit function parameter (only lengths and control
flow, never entropy values, matter to the claims).  Fallible operations
(network fetchers, JSON serialization of unserializable values, PEM and
base64 parsing) return `Option`/`Except` values; a Python exception is an
`Except.error` / `none`.  The persistent cache file is threaded as an
explicit association-list state.
-/

abbrev Str := List Char

/-- The character `{` (written via its code point to keep it out of string
literals). -/
def lbrace : Char := Char.ofNat 123

/-- The character `}`. -/
def rbrace : Char := Char.ofNat 125

/-- The character `'` (apostrophe). -/
def apos : Char := Char.ofNat 39

/-- The character (backtick) with code point 96. -/
def btick : Char := Char.ofNat 96

/-- Decimal digit character: `digitChar d` is the character for `d < 10`,
as produced by Python `str(int)`. -/
def digitChar (d : Nat) : Char := Char.ofNat (48 + d)

/-- Numeric value of a decimal digit character. -/
def digitVal (c : Char) : Nat := c.toNat - 48

/-- Decimal-digit test (model of the character class `0`-`9`). -/
def isDig (c : Char) : Bool := 48 ≤ c.toNat && c.toNat ≤ 57

/-- Big-endian decimal digits of a natural number, as in Python `str(n)`. -/
def natDigits (n : Nat) : Str :=
  if _h : n < 10 then [digitChar n]
  else natDigits (n / 10) ++ [digitChar (n % 10)]
termination_by n
decreasing_by exact Nat.div_lt_self (by omega) (by omega)

/-- Value of a big-endian decimal digit string. -/
def digitsVal (l : Str) : Nat := l.foldl (fun a c => 10 * a + digitVal c) 0

/-- Python `repr` of an `int`: an optional minus sign followed by decimal
digits. -/
def intRepr : Int → Str
  | .ofNat n => natDigits n
  | .negSucc m => '-' :: natDigits (m + 1)

/-- Hexadecimal digit character (lower case), as emitted by Python
`json.dumps` in `\uXXXX` escapes. -/
def hexDigit (n : Nat) : Char :=
  if n < 10 then Char.ofNat (48 + n) else Char.ofNat (87 + n)

/-- Four-digit hexadecimal rendering of `n < 0x10000`. -/
def hex4 (n : Nat) : Str :=
  [hexDigit (n / 4096 % 16), hexDigit (n / 256 % 16),
   hexDigit (n / 16 % 16), hexDigit (n % 16)]

/-- Partial inverse of `hexDigit`. -/
def unhexDigit (c : Char) : Option Nat :=
  if 48 ≤ c.toNat ∧ c.toNat ≤ 57 then some (c.toNat - 48)
  else if 97 ≤ c.toNat ∧ c.toNat ≤ 102 then some (c.toNat - 87)
  else none

/-- Value of four hexadecimal digit characters. -/
def unhex4 (a b c d : Char) : Option Nat :=
  match unhexDigit a, unhexDigit b, unhexDigit c, unhexDigit d with
  | some x, some y, some z, some w => some (4096 * x + 256 * y + 16 * z + w)
  | _, _, _, _ => none

/-- Escape of one character in a JSON string literal, following CPython
`json.encoder.py_encode_basestring_ascii` (`ensure_ascii=True`): quote and
backslash get two-character escapes, the control characters BS FF LF CR TAB
get their short escapes, printable ASCII passes through, everything else
becomes `\uXXXX` (with a surrogate pair above `0xFFFF`). -/
def escChar (c : Char) : Str :=
  if c = '"' then ['\\', '"']
  else if c = '\\' then ['\\', '\\']
  else if c.toNat = 8 then ['\\', 'b']
  else if c.toNat = 12 then ['\\', 'f']
  else if c.toNat = 10 then ['\\', 'n']
  else if c.toNat = 13 then ['\\', 'r']
  else if c.toNat = 9 then ['\\', 't']
  else if 32 ≤ c.toNat ∧ c.toNat ≤ 126 then [c]
  else if c.toNat < 65536 then '\\' :: 'u' :: hex4 c.toNat
  else
    ('\\' :: 'u' :: hex4 (55296 + (c.toNat - 65536) / 1024)) ++
    ('\\' :: 'u' :: hex4 (56320 + (c.toNat - 65536) % 1024))

/-- JSON escape of a whole string body (without the surrounding quotes). -/
def escapeStr (s : Str) : Str := s.flatMap escChar

/-- JSON-serializable Python values appearing in a verdict payload.
`jbad` stands for a value `json.dumps` cannot serialize (it raises
`TypeError`, modelled as `none` in `encJval`). -/
inductive Jval where
  | jstr (s : Str)
  | jint (n : Int)
  | jbool (b : Bool)
  | jnull
  | jbad
deriving DecidableEq

/-- Compact JSON encoding of a single value, as `json.dumps` renders it. -/
def encJval : Jval → Option Str
  | .jstr s => some ('"' :: escapeStr s ++ ['"'])
  | .jint n => some (intRepr n)
  | .jbool true => some "true".data
  | .jbool false => some "false".data
  | .jnull => some "null".data
  | .jbad => none

/-- A payload dictionary: association list of field name to value (a Python
`dict` has no duplicate keys; theorems carry that as a `Nodup` hypothesis). -/
abbrev Payload := List (Str × Jval)

/-- The keys of a payload sorted lexicographically, as `json.dumps` with
`sort_keys=True` iterates them. -/
def sortedKeys (p : Payload) : List Str :=
  List.insertionSort (· ≤ ·) (p.map Prod.fst)

/-- The value stored at key `k` (payloads are dictionaries, so under the
`Nodup` hypothesis this is the unique binding). -/
def lookupVal (p : Payload) (k : Str) : Jval := (List.lookup k p).getD .jnull

/-- One `"key":value` member of the serialized object. -/
def encPair (k : Str) (v : Str) : Str :=
  '"' :: escapeStr k ++ '"' :: ':' :: v

/-- Serialize the members for the given key order; `none` if any value is
unserializable. -/
def encPieces (p : Payload) : List Str → Option (List Str)
  | [] => some []
  | k :: ks =>
    match encJval (lookupVal p k), encPieces p ks with
    | some v, some rest => some (encPair k v :: rest)
    | _, _ => none

/-- Join object members with the compact `","` separator. -/
def joinComma : List Str → Str
  | [] => []
  | [x] => x
  | x :: y :: xs => x ++ ',' :: joinComma (y :: xs)

/-- `canonical_bytes` from `crypto_utils.py`:
`json.dumps(payload, sort_keys=True, separators=(",", ":")).encode("utf-8")`.
Keys are sorted, separators carry no whitespace; `none` models the
`TypeError` raised on an unserializable value. -/
def canonical_bytes (p : Payload) : Option Str :=
  (encPieces p (sortedKeys p)).map (fun ps => lbrace :: joinComma ps ++ [rbrace])

/-- The base64 alphabet. -/
def b64chars : Str :=
  "ABCDEFGHIJKLMNOPQRSTUVWXYZabcdefghijklmnopqrstuvwxyz0123456789+/".data

/-- Model of base64 text encoding of the byte string holding the natural
number `n` (little-endian base-64 digits; a stand-in for `base64.b64encode`
in `b64`). -/
def encB64 (n : Nat) : Str :=
  if _h : n < 64 then [b64chars.getD n 'A']
  else b64chars.getD (n % 64) 'A' :: encB64 (n / 64)
termination_by n
decreasing_by exact Nat.div_lt_self (by omega) (by omega)

/-- Decode one base64 character; `none` on a character outside the
alphabet. -/
def decB64c (c : Char) : Option Nat :=
  if c ∈ b64chars then some (b64chars.indexOf c) else none

/-- Model of `base64.b64decode` (`b64d`): `none` on malformed input. -/
def decodeB64 : Str → Option Nat
  | [] => none
  | [c] => decB64c c
  | c :: rest =>
    match decB64c c, decodeB64 rest with
    | some i, some r => some (i + 64 * r)
    | _, _ => none

/-- Header marker of the PEM document produced for the public key. -/
def pemHeader : Str := "-----BEGIN PUBLIC KEY-----".data

/-- Model of the PEM export of an RSA public key `(e, n)` (the byte-exact
serialized key material of `load_or_make_rsa`). -/
def pemOfPub (e n : Nat) : Str :=
  pemHeader ++ natDigits e ++ ',' :: natDigits n

/-- Split a character list at the first occurrence of `sep`; `none` when
`sep` does not occur. -/
def splitFirstChar (sep : Char) : Str → Option (Str × Str)
  | [] => none
  | c :: r =>
    if c = sep then some ([], r)
    else
      match splitFirstChar sep r with
      | some (a, b) => some (c :: a, b)
      | none => none

/-- Model of `serialization.load_pem_public_key`: recover `(e, n)` from a
PEM document, `none` (a raised `ValueError`) on malformed input. -/
def parsePem (l : Str) : Option (Nat × Nat) :=
  if l.take pemHeader.length = pemHeader then
    match splitFirstChar ',' (l.drop pemHeader.length) with
    | some (a, b) =>
      if a ≠ [] ∧ a.all isDig ∧ b ≠ [] ∧ b.all isDig then
        some (digitsVal a, digitsVal b)
      else none
    | none => none
  else none

/-- The bundle returned by `sign_and_mac`: base64 HMAC tag and base64 RSA
signature. -/
structure SigBundle where
  hmac : Str
  signature : Str
deriving DecidableEq

/-- `sign_and_mac` from `crypto_utils.py`: canonicalize the payload, tag it
with HMAC-SHA-256 (the keyed hash is the abstract parameter `mac`) and sign
it with RSA PKCS#1 v1.5 / SHA-256 (the padded digest is the abstract
parameter `H`, the private exponent `d`, modulus `n`).  `none` models the
un-caught `TypeError` when the payload is unserializable. -/
def sign_and_mac (H mac : Str → Nat) (d n : Nat) (payload : Payload) :
    Option SigBundle :=
  (canonical_bytes payload).map
    (fun msg => ⟨encB64 (mac msg), encB64 (H msg ^ d % n)⟩)

/-- `verify_rsa` from `crypto_utils.py`: load the PEM key, base64-decode the
signature, recompute canonical bytes and check the RSA equation; every
failure path (malformed key, malformed signature, unserializable payload,
wrong signature) is caught and yields `false`.  Total by construction: the
`try`/`except` is modelled by the `Option` results of the fallible steps. -/
def verify_rsa (H : Str → Nat) (pub_pem : Str) (payload : Payload)
    (signature_b64 : Str) : Bool :=
  match parsePem pub_pem with
  | none => false
  | some (e, n) =>
    match decodeB64 signature_b64 with
    | none => false
    | some sig =>
      match canonical_bytes payload with
      | none => false
      | some msg => sig ^ e % n == H msg

/-- Split on every occurrence of `sep`, keeping empty parts, as Python
`str.split(sep)` does (so splitting the empty string yields one empty
part). -/
def splitChar (sep : Char) : Str → List Str
  | [] => [[]]
  | c :: r =>
    let rest := splitChar sep r
    if c = sep then [] :: rest
    else
      match rest with
      | [] => [[c]]
      | h :: t => (c :: h) :: t

/-- Split at the last occurrence of `sep` (Python `str.rsplit(sep, 1)` when
`sep` occurs); `none` when `sep` does not occur. -/
def splitLastChar (sep : Char) (l : Str) : Option (Str × Str) :=
  match splitFirstChar sep l.reverse with
  | some (a, b) => some (b.reverse, a.reverse)
  | none => none

/-- ASCII model of Python `str.lower` on one character. -/
def lowerChar (c : Char) : Char :=
  if 65 ≤ c.toNat ∧ c.toNat ≤ 90 then Char.ofNat (c.toNat + 32) else c

/-- ASCII model of Python `str.lower`. -/
def lowerStr (l : Str) : Str := l.map lowerChar

/-- Boolean substring test, modelling Python `needle in haystack`. -/
def containsSub (needle hay : Str) : Bool :=
  if needle.isPrefixOf hay then true
  else
    match hay with
    | [] => false
    | _ :: t => containsSub needle t

/-- Components produced by `urllib.parse.urlparse`: scheme, netloc, path,
params, query, fragment. -/
structure UrlParts where
  scheme : Str
  netloc : Str
  path : Str
  params : Str
  query : Str
  fragment : Str
deriving DecidableEq

/-- Characters allowed in a URL scheme after the initial letter. -/
def isSchemeChar (c : Char) : Bool :=
  c.isAlphanum || c = '+' || c = '-' || c = '.'

/-- First stage of `urlsplit`: strip `scheme:` when the prefix before the
first colon is a well-formed scheme starting with a letter. -/
def splitScheme (l : Str) : Str × Str :=
  match splitFirstChar ':' l with
  | some (pre, post) =>
    if pre ≠ [] ∧ (pre.headD 'a').isAlpha ∧ pre.all isSchemeChar
    then (lowerStr pre, post)
    else ([], l)
  | none => ([], l)

/-- True of characters that do not terminate the netloc part. -/
def notDelim (c : Char) : Bool := ¬(c = '/' ∨ c = '?' ∨ c = '#')

/-- Model of `urllib.parse.urlsplit` (CPython: scheme, then `//netloc` up
to the first of `/?#`, then fragment after `#`, then query after `?`). -/
def pyUrlsplit (l : Str) : UrlParts :=
  let sp := splitScheme l
  let scheme := sp.1
  let rest := sp.2
  let nl :=
    if rest.take 2 = ['/', '/'] then
      let r := rest.drop 2
      (r.takeWhile notDelim, r.dropWhile notDelim)
    else ([], rest)
  let netloc := nl.1
  let fr :=
    match splitFirstChar '#' nl.2 with
    | some (a, b) => (a, b)
    | none => (nl.2, [])
  let pq :=
    match splitFirstChar '?' fr.1 with
    | some (a, b) => (a, b)
    | none => (fr.1, [])
  ⟨scheme, netloc, pq.1, [], pq.2, fr.2⟩

/-- Model of `urllib.parse._splitparams`: split `;params` out of the last
path segment. -/
def splitParams (path : Str) : Str × Str :=
  if ('/' : Char) ∈ path then
    match splitLastChar '/' path with
    | some (before, last) =>
      match splitFirstChar ';' last with
      | some (a, b) => (before ++ '/' :: a, b)
      | none => (path, [])
    | none => (path, [])
  else
    match splitFirstChar ';' path with
    | some (a, b) => (a, b)
    | none => (path, [])

/-- Model of `urllib.parse.urlparse`: `urlsplit` plus params splitting. -/
def pyUrlparse (l : Str) : UrlParts :=
  let u := pyUrlsplit l
  if (';' : Char) ∈ u.path then
    let pp := splitParams u.path
    { u with path := pp.1, params := pp.2 }
  else u

/-- The netloc-reattachment step of `urlunsplit`. -/
def addNetloc (netloc path : Str) : Str :=
  if netloc ≠ [] ∨ path.take 2 = ['/', '/'] then
    '/' :: '/' :: netloc ++
      (if path ≠ [] ∧ path.take 1 ≠ ['/'] then '/' :: path else path)
  else path

/-- Model of `urllib.parse.urlunsplit` (reassembly used by `geturl`). -/
def pyUrlunsplit (scheme netloc path query fragment : Str) : Str :=
  let url := addNetloc netloc path
  let url := if scheme ≠ [] then scheme ++ ':' :: url else url
  let url := if query ≠ [] then url ++ '?' :: query else url
  if fragment ≠ [] then url ++ '#' :: fragment else url

/-- Model of `ParseResult.geturl` (`urlunparse`): params are glued back
onto the path with `;`. -/
def pyUrlunparse (u : UrlParts) : Str :=
  let path := if u.params ≠ [] then u.path ++ ';' :: u.params else u.path
  pyUrlunsplit u.scheme u.netloc path u.query u.fragment

/-- The scheme-defaulting step of `extract_features_with_meta`
(`if "://" not in url: url = "http://" + url`). -/
def ensureScheme (url : Str) : Str :=
  if containsSub "://".data url then url else "http://".data ++ url

/-- `full_url` as computed by `extract_features_with_meta`:
`urlparse(url).geturl()` after scheme defaulting. -/
def normFullUrl (url : Str) : Str := pyUrlunparse (pyUrlparse (ensureScheme url))

/-- Model of `tldextract.extract`-based `_etld1_from_url`, with a one-label
public-suffix model of the public-suffix list: the registrable domain is
the last two host labels when a suffix exists, otherwise the bare domain or
netloc, lower-cased.  (Port and userinfo are stripped from the netloc as
`tldextract` does.) -/
def etld1FromUrl (url : Str) : Str :=
  let netloc := (pyUrlparse url).netloc
  let host :=
    match splitLastChar '@' netloc with
    | some (_, h) => h
    | none => netloc
  let host :=
    match splitFirstChar ':' host with
    | some (h, _) => h
    | none => host
  let labs := (splitChar '.' host).filter (· ≠ [])
  match labs.reverse with
  | suffix :: dom :: _ => lowerStr (dom ++ '.' :: suffix)
  | [dom] => lowerStr dom
  | [] => lowerStr netloc

/-- Model of `urllib.parse.unquote_plus` at character level: `+` becomes a
space, `%hh` with two hex digits decodes to the character with that code,
anything else passes through.  (The UTF-8 byte-level decoding of multi-byte
percent sequences is elided; no claim depends on decoded values.) -/
def unquotePlus : Str → Str
  | [] => []
  | '+' :: r => ' ' :: unquotePlus r
  | '%' :: a :: b :: r =>
    match unhexDigit a, unhexDigit b with
    | some x, some y => Char.ofNat (16 * x + y) :: unquotePlus r
    | _, _ => '%' :: unquotePlus (a :: b :: r)
  | c :: r => c :: unquotePlus r

/-- The name/value pairs of `urllib.parse.parse_qsl` with default options:
split on `&`, drop empty parts, drop parts without `=`, drop pairs whose
value is empty, unquote names and values. -/
def qsPairs (q : Str) : List (Str × Str) :=
  (splitChar '&' q).foldr
    (fun part acc =>
      if part = [] then acc
      else
        match splitFirstChar '=' part with
        | none => acc
        | some (n, v) =>
          if v = [] then acc else (unquotePlus n, unquotePlus v) :: acc)
    []

/-- Insert one pair into the value-grouping dictionary, preserving first
insertion order of keys (Python `dict` semantics). -/
def insertKV : List (Str × List Str) → Str × Str → List (Str × List Str)
  | [], kv => [(kv.1, [kv.2])]
  | e :: rest, kv =>
    if e.1 = kv.1 then (e.1, e.2 ++ [kv.2]) :: rest else e :: insertKV rest kv

/-- Model of `urllib.parse.parse_qs`: pairs grouped into a dictionary from
name to list of values. -/
def parse_qs (q : Str) : List (Str × List Str) := (qsPairs q).foldl insertKV []

/-- `VOWELS` from `feature_extractor.py`. -/
def VOWELS : Str := "aeiou".data

/-- `CONSONANTS` from `feature_extractor.py`. -/
def CONSONANTS : Str := "bcdfghjklmnpqrstvwxyz".data

/-- `EXEC_EXTS` from `feature_extractor.py`. -/
def EXEC_EXTS : List Str :=
  [".exe".data, ".bat".data, ".cmd".data, ".scr".data, ".com".data, ".pif".data]

/-- `SENSITIVE` from `feature_extractor.py`. -/
def SENSITIVE : List Str :=
  ["login".data, "secure".data, "account".data, "update".data,
   "verify".data, "bank".data, "signin".data]

/-- `SYM` from `feature_extractor.py`: the ASCII punctuation set (the
apostrophe, backtick and braces are added by code point to keep them out
of the string literal). -/
def SYM : Str :=
  "!\"#$%&()*+,-./:;<=>?@[\\]^_|~".data ++ [apos, btick, lbrace, rbrace]

/-- The characters excluded by feature slot 58. -/
def slot58Excluded : Str := "/:.*?=&-".data

/-- Length of the longest run of consecutive decimal digits (the value of
`max(len(m) for m in re.finditer(r"\d+", seg))` with default 0). -/
def maxDigitRun (l : Str) : Nat :=
  (l.foldl
    (fun (acc : Nat × Nat) c =>
      if c.isDigit then (acc.1 + 1, max acc.2 (acc.1 + 1)) else (0, acc.2))
    (0, 0)).2

/-- Length of the longest run of one repeated character (the value of
`max(len(m) for m in re.finditer(r"(.)\1*", s))` with default 0). -/
def maxEqualRun : Str → Nat
  | [] => 0
  | c :: r =>
    (r.foldl
      (fun (acc : Char × Nat × Nat) d =>
        if d = acc.1 then (d, acc.2.1 + 1, max acc.2.2 (acc.2.1 + 1))
        else (d, 1, acc.2.2))
      (c, 1, 1)).2.2

/-- `max((len(t) for t in ls), default=0)`. -/
def maxLen (ls : List Str) : Nat := (ls.map List.length).foldr max 0

/-- Count of decimal digit characters. -/
def digitCount (l : Str) : Nat := l.countP (fun c => c.isDigit)

/-- Count of letters. -/
def alphaCount (l : Str) : Nat := l.countP (fun c => c.isAlpha)

/-- Count of `SYM` punctuation characters. -/
def symCount (l : Str) : Nat := l.countP (fun c => SYM.contains c)

/-- `shannon_entropy` from `feature_extractor.py`, with `math.log2`
abstracted as the parameter `log2` (Python computes in IEEE floats; the
claims depend only on the shape of the vector, never on entropy values). -/
def shannon_entropy (log2 : ℚ → ℚ) (s : Str) : ℚ :=
  if s = [] then 0
  else
    let ln : ℚ := (s.length : ℚ)
    Neg.neg ((s.dedup.map
        (fun c => ((s.count c : ℚ) / ln) * log2 ((s.count c : ℚ) / ln))).sum)

/-- One decimal component of a dotted host, as `socket.inet_aton` reads it
(decimal forms; the rarely-used octal/hex forms are not modelled and no
claim depends on them). -/
def parseIpPart (l : Str) : Option Nat :=
  if l ≠ [] ∧ l.all isDig then some (digitsVal l) else none

/-- `_is_ip` from `feature_extractor.py`: 1 when `socket.inet_aton`
accepts the host (1 to 4 dotted decimal components within range), else 0. -/
def isIp (host : Str) : Nat :=
  match (splitChar '.' host).mapM parseIpPart with
  | none => 0
  | some [a] => if a < 4294967296 then 1 else 0
  | some [a, b] => if a < 256 ∧ b < 16777216 then 1 else 0
  | some [a, b, c] => if a < 256 ∧ b < 256 ∧ c < 65536 then 1 else 0
  | some [a, b, c, d] =>
    if a < 256 ∧ b < 256 ∧ c < 256 ∧ d < 256 then 1 else 0
  | some _ => 0

/-- The 80 URL-heuristic feature slots of `extract_features_with_meta`
(slots 1 to 79 plus the slot-80 placeholder 0 later overwritten by the CT
flag), in the fixed source order. -/
def lexFeats (log2 : ℚ → ℚ) (full_url : Str) : List ℚ :=
  let p := pyUrlparse full_url
  let host := lowerStr p.netloc
  let path := p.path
  let query := p.query
  let fname :=
    match splitLastChar '/' path with
    | some (_, f) => f
    | none => path
  let ext :=
    match splitLastChar '.' fname with
    | some (_, e) => '.' :: lowerStr e
    | none => []
  let d_toks := (splitChar '.' host).filter (· ≠ [])
  let p_toks := (splitChar '/' path).filter (· ≠ [])
  let qdict := parse_qs query
  let vals := qdict.flatMap Prod.snd
  let u : Nat := full_url.length
  let dm : Nat := host.length
  let pd : Nat := path.length
  let ql : Nat := query.length
  let lower_url := lowerStr full_url
  let segs5 := [full_url, host, path, fname, query]
  let segs6 := [full_url, host, path, fname, ext, query]
  -- 1-9
  [(qdict.length : ℚ),
   (d_toks.length : ℚ),
   (p_toks.length : ℚ),
   (if d_toks ≠ [] then ((d_toks.map List.length).sum : ℚ) / (d_toks.length : ℚ) else 0),
   (maxLen d_toks : ℚ),
   (if p_toks ≠ [] then ((p_toks.map List.length).sum : ℚ) / (p_toks.length : ℚ) else 0),
   (match d_toks.getLast? with
    | some t => (t.length : ℚ)
    | none => 0),
   (lower_url.countP (fun c => VOWELS.contains c) : ℚ),
   (lower_url.countP (fun c => CONSONANTS.contains c) : ℚ)]
  -- 10-14 longest digit run per segment
  ++ segs5.map (fun seg => (maxDigitRun seg : ℚ))
  -- 15-19 digit count per segment
  ++ segs5.map (fun seg => (digitCount seg : ℚ))
  -- 20-26 lengths
  ++ [(u : ℚ), (dm : ℚ), (pd : ℚ),
      (match splitLastChar '/' path with
       | some (b, _) => (b.length : ℚ)
       | none => 0),
      (fname.length : ℚ), (ext.length : ℚ), (ql : ℚ)]
  -- 27-32 ratios (denominator-zero guarded to 0)
  ++ [(if u ≠ 0 then (pd : ℚ) / (u : ℚ) else 0),
      (if u ≠ 0 then (ql : ℚ) / (u : ℚ) else 0),
      (if dm ≠ 0 then (ql : ℚ) / (dm : ℚ) else 0),
      (if u ≠ 0 then (dm : ℚ) / (u : ℚ) else 0),
      (if dm ≠ 0 then (pd : ℚ) / (dm : ℚ) else 0),
      (if pd ≠ 0 then (ql : ℚ) / (pd : ℚ) else 0)]
  -- 33-38 flags and misc
  ++ [(if ext ∈ EXEC_EXTS then 1 else 0),
      (if containsSub ":80".data host then 1 else 0),
      (full_url.count '.' : ℚ),
      (isIp host : ℚ),
      (maxEqualRun full_url : ℚ) / ((if u = 0 then 1 else u : Nat) : ℚ),
      (maxLen vals : ℚ)]
  -- 39-44 digit counts per segment
  ++ segs6.map (fun seg => (digitCount seg : ℚ))
  -- 45-50 letter counts per segment
  ++ segs6.map (fun seg => (alphaCount seg : ℚ))
  -- 51-54 longest token lengths
  ++ [(maxLen p_toks : ℚ), (maxLen d_toks : ℚ),
      (maxLen p_toks : ℚ), (maxLen p_toks : ℚ)]
  -- 55 longest query key or value
  ++ [(maxLen (qdict.map Prod.fst ++ vals) : ℚ)]
  -- 56 sensitive-word flag
  ++ [(if SENSITIVE.any (fun w => containsSub w lower_url) then 1 else 0)]
  -- 57 distinct query key count
  ++ [(qdict.length : ℚ)]
  -- 58 special characters outside the usual URL delimiters
  ++ [(full_url.countP
        (fun c => !c.isAlphanum && !slot58Excluded.contains c) : ℚ)]
  -- 59-61 delimiters
  ++ [(host.count '.' : ℚ), (path.count '/' : ℚ),
      (host.count '.' + path.count '/' : ℚ)]
  -- 62-67 digit rate per segment
  ++ ([((u : Nat), full_url), (dm, host), (pd, path),
       (fname.length, fname), (ext.length, ext), (ql, query)]).map
      (fun sl => (digitCount sl.2 : ℚ) / ((if sl.1 = 0 then 1 else sl.1 : Nat) : ℚ))
  -- 68-73 symbol counts per segment
  ++ segs6.map (fun seg => (symCount seg : ℚ))
  -- 74-79 entropy per segment
  ++ segs6.map (fun seg => shannon_entropy log2 seg)
  -- 80 placeholder for the CT flag
  ++ [0]

/-- The per-signal provenance map (`_source`): each of `whois`, `ct`, `dom`
is tagged `cache`, `network` or `fallback`. -/
structure Sources where
  whois : String
  ct : String
  dom : String
deriving DecidableEq

/-- One cached enrichment record (a value of `feature_cache.json`).
`source` is the `_source` sub-record; it is optional because an externally
written cache file may lack it (the code uses `.get` with a default). -/
structure Entry where
  whois_age_days : Int
  ct_flag : Int
  dom_forms : Int
  dom_has_password : Int
  dom_ext_int_ratioQ : ℚ
  dom_iframes : Int
  source : Option Sources
deriving DecidableEq

/-- The all-`fallback` provenance record of `_neutral_values`. -/
def fallbackSources : Sources := ⟨"fallback", "fallback", "fallback"⟩

/-- `_neutral_values` from `feature_extractor.py`: neutral defaults that do
not bias toward a phishing verdict when signals are unknown. -/
def neutral_values : Entry := ⟨365, 0, 0, 0, 0, 0, some fallbackSources⟩

/-- `_merge_meta`: functional update of one provenance key. -/
def mergeMeta (s : Sources) (k v : String) : Sources :=
  if k = "whois" then { s with whois := v }
  else if k = "ct" then { s with ct := v }
  else if k = "dom" then { s with dom := v }
  else s

/-- Update `values["_source"]` through `_merge_meta` (the `_source` key is
always present on this path; the default covers the impossible case). -/
def setSrc (v : Entry) (k tag : String) : Entry :=
  { v with source := some (mergeMeta (v.source.getD fallbackSources) k tag) }

/-- The three enrichment fetchers as oracles.  `whois` models
`_fetch_whois_age_days` (`.error` a raised exception, `none` an unknown
creation date), `ct` models `_fetch_ct_flag`, `dom` models
`_fetch_dom_metrics` returning (forms, password flag, external/internal
ratio, iframes). -/
structure FetchOracle where
  whois : Str → Except Unit (Option Int)
  ct : Str → Except Unit Int
  dom : Str → Except Unit (Int × Int × ℚ × Int)

/-- The WHOIS block of the cache-miss fetch path (lines 312-322): an
exception, an unknown creation date or a non-positive age keep the neutral
365 with `fallback` provenance; a positive age is recorded with `network`
provenance. -/
def whoisStep (res : Except Unit (Option Int)) (v : Entry) : Entry :=
  match res with
  | .error _ => setSrc v "whois" "fallback"
  | .ok none => { setSrc v "whois" "fallback" with whois_age_days := 365 }
  | .ok (some age) =>
    if age ≤ 0 then { setSrc v "whois" "fallback" with whois_age_days := 365 }
    else { setSrc v "whois" "network" with whois_age_days := age }

/-- The CT block of the cache-miss fetch path (lines 324-330). -/
def ctStep (res : Except Unit Int) (v : Entry) : Entry :=
  match res with
  | .error _ => setSrc v "ct" "fallback"
  | .ok ctflag => { setSrc v "ct" "network" with ct_flag := ctflag }

/-- The DOM block of the cache-miss fetch path (lines 332-341). -/
def domStep (res : Except Unit (Int × Int × ℚ × Int)) (v : Entry) : Entry :=
  match res with
  | .error _ => setSrc v "dom" "fallback"
  | .ok (f, pw, exin, ifr) =>
    { setSrc v "dom" "network" with
        dom_forms := f, dom_has_password := pw,
        dom_ext_int_ratioQ := exin, dom_iframes := ifr }

/-- The cache-miss fetch path of `extract_features_with_meta` (lines
309-341): start from neutral defaults and fill in each signal from its
fetcher, tagging per-signal provenance `network` on success and `fallback`
on an exception or an unusable WHOIS age. -/
def fetchPath (o : FetchOracle) (hk : Str) (full_url : Str) : Entry :=
  domStep (o.dom full_url) (ctStep (o.ct hk) (whoisStep (o.whois hk) neutral_values))

/-- The persistent cache (`feature_cache.json`): registrable domain to
entry, Python-dict semantics. -/
abbrev Cache := List (Str × Entry)

/-- Python `cache[hk] = values`: replace the binding if present, else
append. -/
def cacheInsert : Cache → Str → Entry → Cache
  | [], k, v => [(k, v)]
  | e :: rest, k, v =>
    if e.1 = k then (k, v) :: rest else e :: cacheInsert rest k v

/-- Result of the WHOIS/DOM/CT resolution step: the entry used, the meta
sources, the cache-hit flag, the written-back cache state, and the number
of fetcher invocations (network calls). -/
structure ResolveResult where
  values : Entry
  sources : Sources
  cache_hit : Bool
  cache : Cache
  netCalls : Nat
deriving DecidableEq

/-- The WHOIS/DOM/CT resolution policy of `extract_features_with_meta`
(lines 296-351): cache hit returns the stored entry with its stored
`_source` (defaulting to all-`cache` when the stored entry lacks one);
a miss under `cache-first` or `fetch` runs the three fetchers over neutral
defaults and writes the merged entry back; a miss under any other mode
(`cache-only`) writes and returns the neutral entry without fetching. -/
def resolveEntry (o : FetchOracle) (network_mode : String) (cache : Cache)
    (hk : Str) (full_url : Str) : ResolveResult :=
  match List.lookup hk cache with
  | some v =>
    ⟨v, v.source.getD ⟨"cache", "cache", "cache"⟩, true, cache, 0⟩
  | none =>
    if network_mode = "cache-first" ∨ network_mode = "fetch" then
      let v := fetchPath o hk full_url
      ⟨v, v.source.getD fallbackSources, false, cacheInsert cache hk v, 3⟩
    else
      ⟨neutral_values, fallbackSources, false,
       cacheInsert cache hk neutral_values, 0⟩

/-- The meta record returned alongside the features. -/
structure Meta where
  sources : Sources
  cache_hit : Bool
  used_fallback : Bool
deriving DecidableEq

/-- Overwrite slot 80 with the CT flag and append the six enrichment slots
(81-86), then force length 86 exactly as the source's final guard does. -/
def assembleFeats (lex : List ℚ) (v : Entry) : List ℚ :=
  let f := lex.set 79 (v.ct_flag : ℚ) ++
    [(v.whois_age_days : ℚ), (v.dom_forms : ℚ), (v.dom_has_password : ℚ),
     v.dom_ext_int_ratioQ, (v.dom_iframes : ℚ), (v.ct_flag : ℚ)]
  if f.length ≠ 86 then (f ++ [0]).take 86 else f

/-- The meta record built from a resolution result:
`used_fallback = any(v == "fallback" for v in meta["sources"].values())`. -/
def metaOf (r : ResolveResult) : Meta :=
  ⟨r.sources, r.cache_hit,
   r.sources.whois == "fallback" || r.sources.ct == "fallback" ||
     r.sources.dom == "fallback"⟩

/-- `extract_features_with_meta` from `feature_extractor.py`.  The cache
file content is the explicit `cache` argument; the returned triple-plus-one
is (feature vector, meta, written-back cache state, number of fetcher
invocations).  Given `log2`, the oracle, the URL, the cache state and the
mode, the result is a pure function value. -/
def extract_features_with_meta (log2 : ℚ → ℚ) (o : FetchOracle) (url : Str)
    (cache : Cache) (network_mode : String) :
    List ℚ × Meta × Cache × Nat :=
  (assembleFeats (lexFeats log2 (normFullUrl url))
    (resolveEntry o network_mode cache (etld1FromUrl (normFullUrl url))
      (normFullUrl url)).values,
   metaOf (resolveEntry o network_mode cache (etld1FromUrl (normFullUrl url))
      (normFullUrl url)),
   (resolveEntry o network_mode cache (etld1FromUrl (normFullUrl url))
      (normFullUrl url)).cache,
   (resolveEntry o network_mode cache (etld1FromUrl (normFullUrl url))
      (normFullUrl url)).netCalls)

/-- `extract_features` from `feature_extractor.py`: backward-compatible
wrapper returning only the feature vector; `network=True` forces `fetch`
mode, otherwise `cache-first`. -/
def extract_features (log2 : ℚ → ℚ) (o : FetchOracle) (url : Str)
    (network : Bool) (cache : Cache) : List ℚ :=
  let mode := if network then "fetch" else "cache-first"
  (extract_features_with_meta log2 o url cache mode).1

/-- An HTTP response as `_fetch_ct_flag` consumes it: the `ok` status flag
and the result of `.json()` (`.error` a parse failure, `.ok b` a parsed
body whose truthiness — nonemptiness of the entry list — is `b`). -/
structure HttpResp where
  ok : Bool
  jsonEntries : Except Unit Bool

/-- The crt.sh query URL built by `_fetch_ct_flag`. -/
def ctUrl (host : Str) : Str :=
  "https://crt.sh/?q=".data ++ host ++ "&output=json".data

/-- `_fetch_ct_flag` from `feature_extractor.py` over an HTTP oracle:
0 when crt.sh returns entries, 1 on an empty body, a non-ok status or a
JSON parse failure; an exception raised by `requests.get` itself (timeout,
connection failure) propagates as `.error`. -/
def fetch_ct_flag (http : Str → Except Unit HttpResp) (host : Str) :
    Except Unit Int :=
  match http (ctUrl host) with
  | .error e => .error e
  | .ok r =>
    if r.ok then
      match r.jsonEntries with
      | .error _ => .ok 1
      | .ok hasData => .ok (if hasData then 0 else 1)
    else .ok 1

/-- The normalized URL as assembled in `extract_features_with_meta` lines
183-198: full string from `geturl`, host lower-cased, path and query
defaulting to the empty string.  Total: every input yields a well-formed
record. -/
structure NormalizedURL where
  scheme : Str
  host : Str
  path : Str
  query : Str
  full : Str
deriving DecidableEq

/-- The URL-normalization step of `extract_features_with_meta`. -/
def normalizeUrl (url : Str) : NormalizedURL :=
  let full_url := normFullUrl url
  let p := pyUrlparse full_url
  ⟨p.scheme, lowerStr p.netloc, p.path, p.query, full_url⟩

/-- Python `payload[k] = v` on a dictionary holding key `k`: replace the
value bound at `k`. -/
def setField (p : Payload) (k : Str) (v : Jval) : Payload :=
  p.map (fun kv => if kv.1 = k then (kv.1, v) else kv)

/-- True of payload values whose compact JSON encoding can contain no
space character: every value except a string containing a literal space
(all other whitespace is escaped by the encoder). -/
def spaceFreeVal : Jval → Bool
  | .jstr s => !s.contains ' '
  | _ => true

/-- Decoder for the low-surrogate half of a `\uXXXX\uXXXX` pair (proof
artifact used to establish injectivity of the JSON escape). -/
def unescLow (x : Nat) : Str → Option (Char × Str)
  | s1 :: s2 :: a2 :: b2 :: c3 :: d2 :: r4 =>
    if s1 = '\\' ∧ s2 = 'u' then
      match unhex4 a2 b2 c3 d2 with
      | none => none
      | some y =>
        if 56320 ≤ y ∧ y < 57344 then
          some (Char.ofNat (65536 + (x - 55296) * 1024 + (y - 56320)), r4)
        else none
    else none
  | _ => none

/-- Decoder for the body of a `\u` escape. -/
def unescU : Str → Option (Char × Str)
  | a :: b :: c2 :: d :: r3 =>
    (match unhex4 a b c2 d with
      | none => none
      | some x =>
        if 55296 ≤ x ∧ x < 56320 then unescLow x r3
        else some (Char.ofNat x, r3))
  | _ => none

/-- One-step decoder for `escChar`: reads back exactly one escaped
character.  Proof artifact: `unesc_escChar` below shows it left-inverts
`escChar`, which yields injectivity of the JSON string escape. -/
def unescChar : Str → Option (Char × Str)
  | [] => none
  | c :: r =>
    if c = '\\' then
      match r with
      | [] => none
      | e :: r2 =>
        if e = '"' then some ('"', r2)
        else if e = '\\' then some ('\\', r2)
        else if e = 'b' then some (Char.ofNat 8, r2)
        else if e = 'f' then some (Char.ofNat 12, r2)
        else if e = 'n' then some (Char.ofNat 10, r2)
        else if e = 'r' then some (Char.ofNat 13, r2)
        else if e = 't' then some (Char.ofNat 9, r2)
        else if e = 'u' then unescU r2
        else none
    else some (c, r)

/-- Numeric tag of a payload value's constructor (proof artifact for the
head-character discrimination of encodings). -/
def jtag : Jval → Nat
  | .jstr _ => 0
  | .jint _ => 1
  | .jbool true => 2
  | .jbool false => 3
  | .jnull => 4
  | .jbad => 5

/-- Class of the first character of an encoding. -/
def headClass (c : Char) : Nat :=
  if c = '"' then 0
  else if isDig c = true ∨ c = '-' then 1
  else if c = 't' then 2
  else if c = 'f' then 3
  else if c = 'n' then 4
  else 5

/-! Theorems.  Each claim of the specification gets one theorem below;
helper lemmas precede them. -/

set_option maxRecDepth 8000 in
set_option maxHeartbeats 2000000 in
theorem lexFeats_length (log2 : ℚ → ℚ) (u : Str) :
    (lexFeats log2 u).length = 80 := by
  unfold lexFeats
  simp only [List.length_append, List.length_map, List.length_cons,
    List.length_nil]

theorem assembleFeats_length (lex : List ℚ) (v : Entry)
    (h : lex.length = 80) : (assembleFeats lex v).length = 86 := by
  simp [assembleFeats, h]

theorem extract_feats_eq (log2 : ℚ → ℚ) (o : FetchOracle) (url : Str)
    (cache : Cache) (network_mode : String) :
    (extract_features_with_meta log2 o url cache network_mode).1 =
      assembleFeats (lexFeats log2 (normFullUrl url))
        (resolveEntry o network_mode cache (etld1FromUrl (normFullUrl url))
          (normFullUrl url)).values := by
  unfold extract_features_with_meta
  with_reducible rfl

theorem extract_meta_eq (log2 : ℚ → ℚ) (o : FetchOracle) (url : Str)
    (cache : Cache) (network_mode : String) :
    (extract_features_with_meta log2 o url cache network_mode).2.1 =
      metaOf (resolveEntry o network_mode cache (etld1FromUrl (normFullUrl url))
        (normFullUrl url)) := rfl

theorem extract_cache_eq (log2 : ℚ → ℚ) (o : FetchOracle) (url : Str)
    (cache : Cache) (network_mode : String) :
    (extract_features_with_meta log2 o url cache network_mode).2.2.1 =
      (resolveEntry o network_mode cache (etld1FromUrl (normFullUrl url))
        (normFullUrl url)).cache := rfl

theorem extract_netCalls_eq (log2 : ℚ → ℚ) (o : FetchOracle) (url : Str)
    (cache : Cache) (network_mode : String) :
    (extract_features_with_meta log2 o url cache network_mode).2.2.2 =
      (resolveEntry o network_mode cache (etld1FromUrl (normFullUrl url))
        (normFullUrl url)).netCalls := rfl

/-- Claim C1: for every input URL string and every fixed cache state (and
mode and fetcher behaviour), the feature extractor returns a vector of
exactly 86 numeric elements — never a partial vector.  Determinism given
the cache state is definitional: `extract_features_with_meta` is a pure
function of `(log2, oracle, url, cache, mode)`. -/
theorem c1_feature_vector_length (log2 : ℚ → ℚ) (o : FetchOracle)
    (url : Str) (cache : Cache) (network_mode : String) :
    (extract_features_with_meta log2 o url cache network_mode).1.length = 86 := by
  rw [extract_feats_eq]
  exact assembleFeats_length _ _ (lexFeats_length _ _)

/-- Claim C10: the backward-compatible wrapper `extract_features` returns
exactly the first component of `extract_features_with_meta` run at mode
`fetch` when `network` is true and `cache-first` otherwise. -/
theorem c10_wrapper_refinement (log2 : ℚ → ℚ) (o : FetchOracle) (url : Str)
    (network : Bool) (cache : Cache) :
    extract_features log2 o url network cache =
      (extract_features_with_meta log2 o url cache
        (if network then "fetch" else "cache-first")).1 := rfl

theorem toNat_ofNat_valid (n : Nat) (h : n.isValidChar) :
    (Char.ofNat n).toNat = n := by
  rw [Char.ofNat, dif_pos h]; rfl

theorem lowerChar_idem (c : Char) : lowerChar (lowerChar c) = lowerChar c := by
  unfold lowerChar
  by_cases h : 65 ≤ c.toNat ∧ c.toNat ≤ 90
  · rw [if_pos h]
    have hv : (c.toNat + 32).isValidChar := by
      have := c.valid
      unfold UInt32.isValidChar Nat.isValidChar at *
      omega
    rw [toNat_ofNat_valid _ hv, if_neg (by omega)]
  · rw [if_neg h, if_neg h]

theorem lowerStr_idem (l : Str) : lowerStr (lowerStr l) = lowerStr l := by
  unfold lowerStr
  rw [List.map_map]
  exact List.map_congr_left (fun c _ => lowerChar_idem c)

theorem splitFirstChar_not_mem (sep : Char) (l1 l2 : Str) (h : sep ∉ l1) :
    splitFirstChar sep (l1 ++ sep :: l2) = some (l1, l2) := by
  induction l1 with
  | nil => simp [splitFirstChar]
  | cons c r ih =>
    have hc : ¬ c = sep := by
      intro hcs; exact h (by simp [hcs])
    rw [List.cons_append]
    simp only [splitFirstChar, if_neg hc]
    rw [ih (fun hm => h (List.mem_cons_of_mem _ hm))]

theorem splitFirstChar_none (sep : Char) (l : Str) (h : sep ∉ l) :
    splitFirstChar sep l = none := by
  induction l with
  | nil => rfl
  | cons c r ih =>
    have hc : ¬ c = sep := by
      intro hcs; exact h (by simp [hcs])
    simp only [splitFirstChar, if_neg hc]
    rw [ih (fun hm => h (List.mem_cons_of_mem _ hm))]

theorem splitScheme_http (rest : Str) :
    splitScheme ("http".data ++ ':' :: rest) = ("http".data, rest) := by
  simp [splitScheme, splitFirstChar, isSchemeChar, lowerStr, lowerChar]

theorem pyUrlsplit_scheme_http (rest : Str) :
    (pyUrlsplit ("http".data ++ ':' :: rest)).scheme = "http".data := by
  unfold pyUrlsplit
  rw [splitScheme_http]

theorem pyUrlparse_scheme (l : Str) :
    (pyUrlparse l).scheme = (pyUrlsplit l).scheme := by
  unfold pyUrlparse
  by_cases h : (';' : Char) ∈ (pyUrlsplit l).path
  · rw [if_pos h]
  · rw [if_neg h]

theorem pyUrlunsplit_shape (scheme netloc path query frag : Str)
    (h : scheme ≠ []) :
    ∃ rest, pyUrlunsplit scheme netloc path query frag =
      scheme ++ ':' :: rest := by
  unfold pyUrlunsplit
  simp only [ne_eq, h, not_false_eq_true, if_true]
  generalize addNetloc netloc path = u2
  by_cases hq : query = [] <;> by_cases hf : frag = [] <;>
    simp only [hq, hf, ne_eq, not_true_eq_false, not_false_eq_true, if_true,
      if_false, ite_false, ite_true]
  · exact ⟨u2, rfl⟩
  · exact ⟨u2 ++ '#' :: frag, by simp [List.append_assoc]⟩
  · exact ⟨u2 ++ '?' :: query, by simp [List.append_assoc]⟩
  · exact ⟨u2 ++ '?' :: query ++ '#' :: frag, by simp [List.append_assoc]⟩

theorem parse_unsplit_scheme (netloc path query frag : Str) :
    (pyUrlparse (pyUrlunsplit "http".data netloc path query frag)).scheme =
      "http".data := by
  obtain ⟨rest, hrest⟩ :=
    pyUrlunsplit_shape "http".data netloc path query frag (by decide)
  rw [hrest, pyUrlparse_scheme, pyUrlsplit_scheme_http]

theorem ensureScheme_of_no_sep (url : Str)
    (h : containsSub "://".data url = false) :
    ensureScheme url = "http://".data ++ url := by
  unfold ensureScheme
  rw [h]
  rfl

theorem normFullUrl_scheme (url : Str)
    (h : containsSub "://".data url = false) :
    (pyUrlparse (normFullUrl url)).scheme = "http".data := by
  unfold normFullUrl
  rw [ensureScheme_of_no_sep url h]
  have h0 : (pyUrlparse ("http://".data ++ url)).scheme = "http".data := by
    rw [pyUrlparse_scheme]
    have e1 : "http://".data ++ url = "http".data ++ ':' :: ('/' :: '/' :: url) := rfl
    rw [e1, pyUrlsplit_scheme_http]
  unfold pyUrlunparse
  rw [h0]
  exact parse_unsplit_scheme _ _ _ _

theorem parse_http_noDelim (url : Str)
    (h : ∀ c ∈ url, ¬(c = '/' ∨ c = '?' ∨ c = '#')) :
    pyUrlparse ("http://".data ++ url) = ⟨"http".data, url, [], [], [], []⟩ := by
  have e1 : "http://".data ++ url = "http".data ++ ':' :: ('/' :: '/' :: url) := rfl
  have htw : url.takeWhile notDelim = url :=
    List.takeWhile_eq_self_iff.mpr (by
      simp only [notDelim, decide_eq_true_eq]
      intro a ha
      exact h a ha)
  have hdw : url.dropWhile notDelim = [] :=
    List.dropWhile_eq_nil_iff.mpr (by
      simp only [notDelim, decide_eq_true_eq]
      intro a ha
      exact h a ha)
  unfold pyUrlparse pyUrlsplit
  rw [e1, splitScheme_http]
  simp only [List.take_cons, List.take_nil, List.drop_succ_cons,
    List.drop_zero, htw, hdw]
  simp [splitFirstChar]

theorem unparse_http_noDelim (url : Str) :
    pyUrlunparse ⟨"http".data, url, [], [], [], []⟩ =
      if url = [] then "http:".data else "http://".data ++ url := by
  unfold pyUrlunparse pyUrlunsplit addNetloc
  by_cases hu : url = [] <;> simp [hu]

theorem normalize_noDelim (url : Str)
    (hs : containsSub "://".data url = false)
    (h : ∀ c ∈ url, ¬(c = '/' ∨ c = '?' ∨ c = '#')) :
    (pyUrlparse (normFullUrl url)).path = [] ∧
      (pyUrlparse (normFullUrl url)).query = [] := by
  unfold normFullUrl
  rw [ensureScheme_of_no_sep url hs, parse_http_noDelim url h,
    unparse_http_noDelim]
  by_cases hu : url = []
  · rw [if_pos hu]
    decide
  · rw [if_neg hu, parse_http_noDelim url h]
    exact ⟨rfl, rfl⟩

theorem normalizeUrl_scheme (url : Str) :
    (normalizeUrl url).scheme = (pyUrlparse (normFullUrl url)).scheme := by
  unfold normalizeUrl
  with_reducible rfl

theorem normalizeUrl_host (url : Str) :
    (normalizeUrl url).host = lowerStr (pyUrlparse (normFullUrl url)).netloc := by
  unfold normalizeUrl
  with_reducible rfl

theorem normalizeUrl_path (url : Str) :
    (normalizeUrl url).path = (pyUrlparse (normFullUrl url)).path := by
  unfold normalizeUrl
  with_reducible rfl

theorem normalizeUrl_query (url : Str) :
    (normalizeUrl url).query = (pyUrlparse (normFullUrl url)).query := by
  unfold normalizeUrl
  with_reducible rfl

/-- Claim C8: URL normalization never fails (the model is a total
function); when no scheme delimiter `://` occurs in the input, `http://` is
prepended and the resulting scheme is `http`; the host as used downstream
is lower-cased (lower-casing is idempotent on it); and an input with no
path, query or fragment delimiters normalizes with path and query
defaulting to the empty string.  Malformed input yields a degenerate but
well-formed `NormalizedURL` rather than an error. -/
theorem c8_url_normalization (url : Str) :
    (containsSub "://".data url = false →
      (normalizeUrl url).scheme = "http".data) ∧
    lowerStr (normalizeUrl url).host = (normalizeUrl url).host ∧
    (containsSub "://".data url = false →
      (∀ c ∈ url, ¬(c = '/' ∨ c = '?' ∨ c = '#')) →
      (normalizeUrl url).path = [] ∧ (normalizeUrl url).query = []) := by
  refine ⟨fun h => ?_, ?_, fun hs h => ?_⟩
  · rw [normalizeUrl_scheme]
    exact normFullUrl_scheme url h
  · rw [normalizeUrl_host]
    exact lowerStr_idem _
  · rw [normalizeUrl_path, normalizeUrl_query]
    exact normalize_noDelim url hs h

/-- Witness for C8 at the concrete input `example.com`. -/
theorem c8_url_normalization_witness :
    (normalizeUrl "example.com".data).scheme = "http".data ∧
    lowerStr (normalizeUrl "example.com".data).host =
      (normalizeUrl "example.com".data).host ∧
    (normalizeUrl "example.com".data).path = [] ∧
    (normalizeUrl "example.com".data).query = [] := by
  have h := c8_url_normalization "example.com".data
  exact ⟨h.1 (by decide), h.2.1,
    (h.2.2 (by decide) (by decide)).1, (h.2.2 (by decide) (by decide)).2⟩

theorem cacheInsert_lookup (c : Cache) (k : Str) (v : Entry) :
    List.lookup k (cacheInsert c k v) = some v := by
  induction c with
  | nil => simp [cacheInsert, List.lookup]
  | cons e rest ih =>
    by_cases h : e.1 = k
    · simp [cacheInsert, h, List.lookup]
    · simp only [cacheInsert, if_neg h, List.lookup]
      rw [beq_eq_false_iff_ne.mpr (fun hk => h hk.symm)]
      exact ih

theorem fetchPath_all_fail (o : FetchOracle) (hk : Str) (u : Str)
    (hw : o.whois hk = .error ()) (hc : o.ct hk = .error ())
    (hd : o.dom u = .error ()) : fetchPath o hk u = neutral_values := by
  unfold fetchPath
  rw [hw, hc, hd]
  rfl

/-- Claim C4 (amended): after one successful cache-first resolution for a
missing key, a second cache-first resolution (under any fetcher behaviour)
returns the identical cached entry, reports a cache hit, performs zero
network calls and leaves the cache unchanged; but its reported provenance
is the entry's stored `_source` (defaulting to all-`cache` only when the
stored entry has no `_source`), not the constant `cache` tag the original
claim states. -/
theorem c4_cache_idempotence_amended (o o2 : FetchOracle) (cache : Cache)
    (hk : Str) (u u2 : Str) (hmiss : List.lookup hk cache = none) :
    (resolveEntry o2 "cache-first"
        (resolveEntry o "cache-first" cache hk u).cache hk u2).values =
      (resolveEntry o "cache-first" cache hk u).values ∧
    (resolveEntry o2 "cache-first"
        (resolveEntry o "cache-first" cache hk u).cache hk u2).cache_hit = true ∧
    (resolveEntry o2 "cache-first"
        (resolveEntry o "cache-first" cache hk u).cache hk u2).netCalls = 0 ∧
    (resolveEntry o2 "cache-first"
        (resolveEntry o "cache-first" cache hk u).cache hk u2).cache =
      (resolveEntry o "cache-first" cache hk u).cache ∧
    (resolveEntry o2 "cache-first"
        (resolveEntry o "cache-first" cache hk u).cache hk u2).sources =
      ((resolveEntry o "cache-first" cache hk u).values.source.getD
        ⟨"cache", "cache", "cache"⟩) := by
  have h1 : resolveEntry o "cache-first" cache hk u =
      ⟨fetchPath o hk u, (fetchPath o hk u).source.getD fallbackSources, false,
       cacheInsert cache hk (fetchPath o hk u), 3⟩ := by
    unfold resolveEntry
    rw [hmiss]
    simp
  rw [h1]
  have h2 : List.lookup hk (cacheInsert cache hk (fetchPath o hk u)) =
      some (fetchPath o hk u) := cacheInsert_lookup _ _ _
  unfold resolveEntry
  rw [h2]
  exact ⟨rfl, rfl, rfl, rfl, rfl⟩

/-- Witness for the amended C4 at concrete inputs (empty cache, an oracle
whose fetchers all succeed). -/
theorem c4_cache_idempotence_amended_witness :
    (resolveEntry
        ⟨fun _ => .ok (some 100), fun _ => .ok 0, fun _ => .ok (1, 1, 0, 2)⟩
        "cache-first"
        (resolveEntry
          ⟨fun _ => .ok (some 100), fun _ => .ok 0, fun _ => .ok (1, 1, 0, 2)⟩
          "cache-first" [] "example.com".data "http://example.com/".data).cache
        "example.com".data "http://example.com/".data).cache_hit = true ∧
    (resolveEntry
        ⟨fun _ => .ok (some 100), fun _ => .ok 0, fun _ => .ok (1, 1, 0, 2)⟩
        "cache-first"
        (resolveEntry
          ⟨fun _ => .ok (some 100), fun _ => .ok 0, fun _ => .ok (1, 1, 0, 2)⟩
          "cache-first" [] "example.com".data "http://example.com/".data).cache
        "example.com".data "http://example.com/".data).netCalls = 0 := by
  have h := c4_cache_idempotence_amended
    ⟨fun _ => .ok (some 100), fun _ => .ok 0, fun _ => .ok (1, 1, 0, 2)⟩
    ⟨fun _ => .ok (some 100), fun _ => .ok 0, fun _ => .ok (1, 1, 0, 2)⟩
    [] "example.com".data "http://example.com/".data "http://example.com/".data
    rfl
  exact ⟨h.2.1, h.2.2.1⟩

/-- Counterexample to C4 as stated: with an all-successful oracle and an
initially empty cache, the second cache-first resolution reports the stored
provenance (`network` for every signal), not `cache`. -/
theorem c4_counterexample :
    (resolveEntry
        ⟨fun _ => .ok (some 100), fun _ => .ok 0, fun _ => .ok (1, 1, 0, 2)⟩
        "cache-first"
        (resolveEntry
          ⟨fun _ => .ok (some 100), fun _ => .ok 0, fun _ => .ok (1, 1, 0, 2)⟩
          "cache-first" [] "example.com".data "http://example.com/".data).cache
        "example.com".data "http://example.com/".data).sources ≠
      ⟨"cache", "cache", "cache"⟩ := by decide

/-- Claim C5: if all three enrichment fetchers fail (raise), a miss under
`cache-first` or `fetch` resolves to exactly the neutral-default entry with
all-`fallback` provenance, the meta reports `used_fallback = true`, the
neutral entry is what gets written to the cache, and the request still
completes with a full 86-slot vector. -/
theorem c5_fallback_neutrality (log2 : ℚ → ℚ) (o : FetchOracle) (url : Str)
    (cache : Cache) (mode : String)
    (hw : ∀ h, o.whois h = .error ()) (hc : ∀ h, o.ct h = .error ())
    (hd : ∀ u, o.dom u = .error ())
    (hmode : mode = "cache-first" ∨ mode = "fetch")
    (hmiss : List.lookup (etld1FromUrl (normFullUrl url)) cache = none) :
    (extract_features_with_meta log2 o url cache mode).2.1.used_fallback = true ∧
    (extract_features_with_meta log2 o url cache mode).2.1.sources =
      fallbackSources ∧
    List.lookup (etld1FromUrl (normFullUrl url))
      (extract_features_with_meta log2 o url cache mode).2.2.1 =
        some neutral_values ∧
    (extract_features_with_meta log2 o url cache mode).1.length = 86 := by
  have hres : resolveEntry o mode cache (etld1FromUrl (normFullUrl url))
      (normFullUrl url) =
      ⟨neutral_values, fallbackSources, false,
       cacheInsert cache (etld1FromUrl (normFullUrl url)) neutral_values, 3⟩ := by
    unfold resolveEntry
    rw [hmiss, if_pos hmode, fetchPath_all_fail o _ _ (hw _) (hc _) (hd _)]
    rfl
  refine ⟨?_, ?_, ?_, ?_⟩
  · rw [extract_meta_eq, hres]
    rfl
  · rw [extract_meta_eq, hres]
    rfl
  · rw [extract_cache_eq, hres]
    exact cacheInsert_lookup _ _ _
  · rw [extract_feats_eq]
    exact assembleFeats_length _ _ (lexFeats_length _ _)

/-- Witness for C5 at concrete inputs: all fetchers raising, empty cache. -/
theorem c5_fallback_neutrality_witness :
    (extract_features_with_meta (fun _ => 0)
      ⟨fun _ => .error (), fun _ => .error (), fun _ => .error ()⟩
      "example.com".data [] "cache-first").2.1.used_fallback = true ∧
    (extract_features_with_meta (fun _ => 0)
      ⟨fun _ => .error (), fun _ => .error (), fun _ => .error ()⟩
      "example.com".data [] "cache-first").2.1.sources = fallbackSources := by
  have h := c5_fallback_neutrality (fun _ => 0)
    ⟨fun _ => .error (), fun _ => .error (), fun _ => .error ()⟩
    "example.com".data [] "cache-first" (fun _ => rfl) (fun _ => rfl)
    (fun _ => rfl) (Or.inl rfl) rfl
  exact ⟨h.1, h.2.1⟩

theorem whoisStep_ct_flag (r : Except Unit (Option Int)) (v : Entry) :
    (whoisStep r v).ct_flag = v.ct_flag := by
  rcases r with e | age
  · rfl
  · rcases age with _ | a
    · rfl
    · simp only [whoisStep]
      by_cases ha : a ≤ 0
      · rw [if_pos ha]
        rfl
      · rw [if_neg ha]
        rfl

theorem whoisStep_src_ct (r : Except Unit (Option Int)) (v : Entry) :
    ((whoisStep r v).source.getD fallbackSources).ct =
      ((v.source.getD fallbackSources)).ct := by
  rcases r with e | age
  · simp [whoisStep, setSrc, mergeMeta]
  · rcases age with _ | a
    · simp [whoisStep, setSrc, mergeMeta]
    · simp only [whoisStep]
      by_cases ha : a ≤ 0
      · rw [if_pos ha]
        simp [setSrc, mergeMeta]
      · rw [if_neg ha]
        simp [setSrc, mergeMeta]

theorem domStep_ct_flag (r : Except Unit (Int × Int × ℚ × Int)) (v : Entry) :
    (domStep r v).ct_flag = v.ct_flag := by
  rcases r with e | ⟨f, pw, exin, ifr⟩
  · rfl
  · rfl

theorem domStep_src_ct (r : Except Unit (Int × Int × ℚ × Int)) (v : Entry) :
    ((domStep r v).source.getD fallbackSources).ct =
      ((v.source.getD fallbackSources)).ct := by
  rcases r with e | ⟨f, pw, exin, ifr⟩
  · simp [domStep, setSrc, mergeMeta]
  · simp [domStep, setSrc, mergeMeta]

theorem ctStep_error_ct_flag (v : Entry) :
    (ctStep (.error ()) v).ct_flag = v.ct_flag := rfl

theorem ctStep_error_src_ct (v : Entry) :
    ((ctStep (.error ()) v).source.getD fallbackSources).ct = "fallback" := by
  simp [ctStep, setSrc, mergeMeta]

/-- Claim C7 (amended): the certificate-transparency probe returns 0 when
crt.sh reports entries and 1 when it reports none; a non-ok HTTP status or
a JSON-parse failure also yields 1; but an exception raised by the HTTP GET
itself propagates out of the probe, and it is the caller that catches it,
substituting the neutral CT value 0 (not 1) with `fallback` provenance. -/
theorem c7_ct_probe_amended (http : Str → Except Unit HttpResp) (host : Str) :
    (∀ r b, http (ctUrl host) = .ok r → r.ok = true → r.jsonEntries = .ok b →
      fetch_ct_flag http host = .ok (if b then 0 else 1)) ∧
    (∀ r, http (ctUrl host) = .ok r → r.ok = false →
      fetch_ct_flag http host = .ok 1) ∧
    (∀ r, http (ctUrl host) = .ok r → r.ok = true →
      r.jsonEntries = .error () → fetch_ct_flag http host = .ok 1) ∧
    (∀ e, http (ctUrl host) = .error e →
      fetch_ct_flag http host = .error e) ∧
    (∀ (o : FetchOracle) (cache : Cache) (hk : Str) (u : Str),
      o.ct hk = .error () → List.lookup hk cache = none →
      (resolveEntry o "cache-first" cache hk u).values.ct_flag = 0 ∧
      (resolveEntry o "cache-first" cache hk u).sources.ct = "fallback") := by
  refine ⟨?_, ?_, ?_, ?_, ?_⟩
  · intro r b hr hok hjson
    unfold fetch_ct_flag
    rw [hr]
    simp [hok, hjson]
  · intro r hr hok
    unfold fetch_ct_flag
    rw [hr]
    simp [hok]
  · intro r hr hok hjson
    unfold fetch_ct_flag
    rw [hr]
    simp [hok, hjson]
  · intro e hr
    unfold fetch_ct_flag
    rw [hr]
  · intro o cache hk u hct hmiss
    have hres : resolveEntry o "cache-first" cache hk u =
        ⟨fetchPath o hk u, (fetchPath o hk u).source.getD fallbackSources,
         false, cacheInsert cache hk (fetchPath o hk u), 3⟩ := by
      unfold resolveEntry
      rw [hmiss]
      simp
    rw [hres]
    unfold fetchPath
    rw [hct]
    constructor
    · rw [domStep_ct_flag, ctStep_error_ct_flag, whoisStep_ct_flag]
      rfl
    · rw [domStep_src_ct, ctStep_error_src_ct]

/-- Witness for the amended C7: an HTTP oracle returning an ok response
with entries makes the probe return 0, applied through the theorem. -/
theorem c7_ct_probe_amended_witness :
    fetch_ct_flag (fun _ => .ok ⟨true, .ok true⟩) "example.com".data =
      .ok 0 := by
  have h := (c7_ct_probe_amended (fun _ => .ok ⟨true, .ok true⟩)
    "example.com".data).1 ⟨true, .ok true⟩ true rfl rfl rfl
  simpa using h

/-- Counterexample to C7 as stated: a transport-level failure of the GET
makes the probe propagate the exception instead of returning the value 1. -/
theorem c7_counterexample :
    fetch_ct_flag (fun _ => .error ()) "example.com".data = .error () ∧
    fetch_ct_flag (fun _ => .error ()) "example.com".data ≠ .ok 1 := by
  refine ⟨rfl, fun h => ?_⟩
  rw [show fetch_ct_flag (fun _ => .error ()) "example.com".data =
    .error () from rfl] at h
  exact Except.noConfusion h

/-- Claim C6: the verifier is total (always returns a boolean; the
`try`/`except` of the source is modelled by the `Option` results of each
fallible step): a malformed key, a malformed signature, an unserializable
payload, and a signature failing the RSA check each yield `false`. -/
theorem c6_verify_never_raises (H : Str → Nat) (pem : Str)
    (payload : Payload) (sig : Str) :
    (verify_rsa H pem payload sig = true ∨
      verify_rsa H pem payload sig = false) ∧
    (parsePem pem = none → verify_rsa H pem payload sig = false) ∧
    (decodeB64 sig = none → verify_rsa H pem payload sig = false) ∧
    (canonical_bytes payload = none → verify_rsa H pem payload sig = false) ∧
    (∀ e n s msg, parsePem pem = some (e, n) → decodeB64 sig = some s →
      canonical_bytes payload = some msg → s ^ e % n ≠ H msg →
      verify_rsa H pem payload sig = false) := by
  refine ⟨Bool.eq_false_or_eq_true _, ?_, ?_, ?_, ?_⟩
  · intro h
    unfold verify_rsa
    rw [h]
  · intro h
    unfold verify_rsa
    rcases hp : parsePem pem with _ | ⟨e, n⟩
    · rfl
    · rw [h]
  · intro h
    unfold verify_rsa
    rcases hp : parsePem pem with _ | ⟨e, n⟩
    · rfl
    · rcases hs : decodeB64 sig with _ | s
      · rfl
      · rw [h]
  · intro e n s msg hp hs hm hne
    unfold verify_rsa
    rw [hp, hs, hm]
    exact beq_eq_false_iff_ne.mpr hne

/-- Witness for C6: a malformed PEM key makes verification return false. -/
theorem c6_verify_never_raises_witness :
    verify_rsa (fun _ => 0) "garbage".data [] "AA".data = false := by
  have h := (c6_verify_never_raises (fun _ => 0) "garbage".data [] "AA".data).2.1
  exact h (by decide)

theorem lookup_perm (p1 p2 : Payload) (hperm : List.Perm p1 p2) :
    (p1.map Prod.fst).Nodup → ∀ k, List.lookup k p1 = List.lookup k p2 := by
  induction hperm with
  | nil => exact fun _ _ => rfl
  | cons x h ih =>
    intro hnd k
    obtain ⟨xk, xv⟩ := x
    simp only [List.map_cons, List.nodup_cons] at hnd
    simp only [List.lookup]
    cases hk : k == xk
    · exact ih hnd.2 k
    · rfl
  | swap x y l =>
    intro hnd k
    obtain ⟨xk, xv⟩ := x
    obtain ⟨yk, yv⟩ := y
    simp only [List.map_cons, List.nodup_cons, List.mem_cons] at hnd
    have hxy : ¬ yk = xk := fun h => hnd.1 (Or.inl h)
    simp only [List.lookup]
    cases hky : k == yk <;> cases hkx : k == xk
    · rfl
    · rfl
    · rfl
    · exact absurd ((beq_iff_eq.mp hky).symm.trans (beq_iff_eq.mp hkx)) hxy
  | trans h12 h23 ih12 ih23 =>
    intro hnd k
    have hnd2 := ((h12.map Prod.fst).nodup_iff).mp hnd
    exact (ih12 hnd k).trans (ih23 hnd2 k)

theorem sortedKeys_perm (p1 p2 : Payload) (hperm : List.Perm p1 p2) :
    sortedKeys p1 = sortedKeys p2 := by
  refine List.eq_of_perm_of_sorted ?_ (List.sorted_insertionSort _ _)
    (List.sorted_insertionSort _ _)
  exact (List.perm_insertionSort _ _).trans
    ((hperm.map Prod.fst).trans (List.perm_insertionSort _ _).symm)

theorem encPieces_congr (p1 p2 : Payload) (L : List Str)
    (h : ∀ k ∈ L, lookupVal p1 k = lookupVal p2 k) :
    encPieces p1 L = encPieces p2 L := by
  induction L with
  | nil => rfl
  | cons k ks ih =>
    simp only [encPieces]
    rw [h k (List.mem_cons_self _ _),
      ih (fun j hj => h j (List.mem_cons_of_mem _ hj))]

theorem canonical_bytes_perm (p1 p2 : Payload) (hperm : List.Perm p1 p2)
    (hnd : (p1.map Prod.fst).Nodup) :
    canonical_bytes p1 = canonical_bytes p2 := by
  unfold canonical_bytes
  rw [sortedKeys_perm p1 p2 hperm]
  rw [encPieces_congr p1 p2 (sortedKeys p2)
    (fun k _ => by unfold lookupVal; rw [lookup_perm p1 p2 hperm hnd k])]

theorem natDigits_isDig (n : Nat) : ∀ c ∈ natDigits n, isDig c = true := by
  induction n using Nat.strong_induction_on with
  | _ n ih =>
    rw [natDigits]
    by_cases h : n < 10
    · rw [dif_pos h]
      intro c hc
      rw [List.mem_singleton] at hc
      subst hc
      unfold digitChar isDig
      rw [toNat_ofNat_valid _ (Or.inl (by omega))]
      simp only [Bool.and_eq_true, decide_eq_true_eq]
      omega
    · rw [dif_neg h]
      intro c hc
      rcases List.mem_append.mp hc with h1 | h2
      · exact ih (n / 10) (Nat.div_lt_self (by omega) (by omega)) c h1
      · rw [List.mem_singleton] at h2
        subst h2
        unfold digitChar isDig
        rw [toNat_ofNat_valid _ (Or.inl (by omega))]
        simp only [Bool.and_eq_true, decide_eq_true_eq]
        omega

theorem natDigits_ne_nil (n : Nat) : natDigits n ≠ [] := by
  rw [natDigits]
  by_cases h : n < 10
  · rw [dif_pos h]
    simp
  · rw [dif_neg h]
    simp

theorem not_isDig_space : isDig ' ' = false := by decide

theorem natDigits_no_space (n : Nat) : ∀ c ∈ natDigits n, c ≠ ' ' := by
  intro c hc hEq
  subst hEq
  have := natDigits_isDig n _ hc
  rw [not_isDig_space] at this
  exact Bool.false_ne_true this

theorem intRepr_no_space (n : Int) : ∀ c ∈ intRepr n, c ≠ ' ' := by
  rcases n with m | m
  · exact natDigits_no_space m
  · intro c hc
    rcases List.mem_cons.mp hc with h1 | h2
    · subst h1; decide
    · exact natDigits_no_space (m + 1) c h2

theorem hexDigit_ne_space (m : Nat) (hm : m < 16) : hexDigit m ≠ ' ' := by
  unfold hexDigit
  intro hEq
  have h32 : (' ').toNat = 32 := rfl
  by_cases h10 : m < 10
  · rw [if_pos h10] at hEq
    have := congrArg Char.toNat hEq
    rw [toNat_ofNat_valid _ (Or.inl (by omega)), h32] at this
    omega
  · rw [if_neg h10] at hEq
    have := congrArg Char.toNat hEq
    rw [toNat_ofNat_valid _ (Or.inl (by omega)), h32] at this
    omega

theorem hex4_no_space (x : Nat) : ∀ c ∈ hex4 x, c ≠ ' ' := by
  intro c hc
  simp only [hex4, List.mem_cons, List.not_mem_nil, or_false] at hc
  rcases hc with h | h | h | h
  · exact h ▸ hexDigit_ne_space _ (Nat.mod_lt _ (by omega))
  · exact h ▸ hexDigit_ne_space _ (Nat.mod_lt _ (by omega))
  · exact h ▸ hexDigit_ne_space _ (Nat.mod_lt _ (by omega))
  · exact h ▸ hexDigit_ne_space _ (Nat.mod_lt _ (by omega))

theorem escChar_no_space (c : Char) (h : c ≠ ' ') : ∀ x ∈ escChar c, x ≠ ' ' := by
  intro x hx
  unfold escChar at hx
  split_ifs at hx with h1 h2 h3 h4 h5 h6 h7 h8 h9
  · simp only [List.mem_cons, List.not_mem_nil, or_false] at hx
    rcases hx with rfl | rfl <;> decide
  · simp only [List.mem_cons, List.not_mem_nil, or_false] at hx
    rcases hx with rfl | rfl <;> decide
  · simp only [List.mem_cons, List.not_mem_nil, or_false] at hx
    rcases hx with rfl | rfl <;> decide
  · simp only [List.mem_cons, List.not_mem_nil, or_false] at hx
    rcases hx with rfl | rfl <;> decide
  · simp only [List.mem_cons, List.not_mem_nil, or_false] at hx
    rcases hx with rfl | rfl <;> decide
  · simp only [List.mem_cons, List.not_mem_nil, or_false] at hx
    rcases hx with rfl | rfl <;> decide
  · simp only [List.mem_cons, List.not_mem_nil, or_false] at hx
    rcases hx with rfl | rfl <;> decide
  · simp only [List.mem_singleton] at hx
    exact hx ▸ h
  · simp only [List.mem_cons] at hx
    rcases hx with rfl | rfl | hx
    · decide
    · decide
    · exact hex4_no_space _ x hx
  · simp only [List.mem_append, List.mem_cons] at hx
    rcases hx with (rfl | rfl | hx) | (rfl | rfl | hx)
    · decide
    · decide
    · exact hex4_no_space _ x hx
    · decide
    · decide
    · exact hex4_no_space _ x hx

theorem escapeStr_no_space (s : Str) (h : ∀ c ∈ s, c ≠ ' ') :
    ∀ x ∈ escapeStr s, x ≠ ' ' := by
  intro x hx
  obtain ⟨a, ha, hxa⟩ := List.mem_flatMap.mp hx
  exact escChar_no_space a (h a ha) x hxa

theorem encJval_no_space (v : Jval) (hv : spaceFreeVal v = true) (s : Str)
    (h : encJval v = some s) : ∀ c ∈ s, c ≠ ' ' := by
  rcases v with s0 | m | b | _ | _
  · simp only [encJval, Option.some.injEq] at h
    subst h
    intro c hc
    rcases List.mem_cons.mp hc with rfl | hc2
    · decide
    · rcases List.mem_append.mp hc2 with h3 | h4
      · refine escapeStr_no_space s0 ?_ c h3
        intro a ha hEq
        subst hEq
        simp only [spaceFreeVal, Bool.not_eq_true'] at hv
        have hns : ¬ (' ' ∈ s0) := by simpa using hv
        exact hns ha
      · rw [List.mem_singleton] at h4
        subst h4
        decide
  · simp only [encJval, Option.some.injEq] at h
    subst h
    exact intRepr_no_space m
  · rcases b with _ | _ <;>
      (simp only [encJval, Option.some.injEq] at h; subst h; decide)
  · simp only [encJval, Option.some.injEq] at h
    subst h
    decide
  · exact Option.noConfusion h

theorem joinComma_mem (ps : List Str) (c : Char) (h : c ∈ joinComma ps) :
    c = ',' ∨ ∃ x ∈ ps, c ∈ x := by
  induction ps with
  | nil => cases h
  | cons x xs ih =>
    rcases xs with _ | ⟨y, ys⟩
    · exact Or.inr ⟨x, List.mem_singleton.mpr rfl, h⟩
    · rcases List.mem_append.mp h with h1 | h2
      · exact Or.inr ⟨x, List.mem_cons_self _ _, h1⟩
      · rcases List.mem_cons.mp h2 with rfl | h3
        · exact Or.inl rfl
        · rcases ih h3 with h4 | ⟨z, hz, hcz⟩
          · exact Or.inl h4
          · exact Or.inr ⟨z, List.mem_cons_of_mem _ hz, hcz⟩

theorem encPieces_no_space (p : Payload) (L : List Str)
    (hkeys : ∀ k ∈ L, ∀ c ∈ k, c ≠ ' ')
    (hvals : ∀ k ∈ L, spaceFreeVal (lookupVal p k) = true) :
    ∀ ps, encPieces p L = some ps → ∀ x ∈ ps, ∀ c ∈ x, c ≠ ' ' := by
  induction L with
  | nil =>
    intro ps h
    simp only [encPieces, Option.some.injEq] at h
    subst h
    intro x hx
    cases hx
  | cons k ks ih =>
    intro ps h
    simp only [encPieces] at h
    rcases hv : encJval (lookupVal p k) with _ | v
    · rw [hv] at h
      exact Option.noConfusion h
    · rw [hv] at h
      rcases hrest : encPieces p ks with _ | rest
      · rw [hrest] at h
        exact Option.noConfusion h
      · rw [hrest] at h
        simp only [Option.some.injEq] at h
        subst h
        intro x hx
        rcases List.mem_cons.mp hx with rfl | h2
        · intro c hc
          unfold encPair at hc
          rcases List.mem_cons.mp hc with rfl | hc2
          · decide
          · rcases List.mem_append.mp hc2 with h3 | h4
            · exact escapeStr_no_space k (hkeys k (List.mem_cons_self _ _)) c h3
            · rcases List.mem_cons.mp h4 with rfl | h5
              · decide
              · rcases List.mem_cons.mp h5 with rfl | h6
                · decide
                · exact encJval_no_space _ (hvals k (List.mem_cons_self _ _)) v hv c h6
        · exact ih (fun j hj => hkeys j (List.mem_cons_of_mem _ hj))
            (fun j hj => hvals j (List.mem_cons_of_mem _ hj)) rest hrest x h2

theorem sortedKeys_mem (p : Payload) (k : Str) (h : k ∈ sortedKeys p) :
    k ∈ p.map Prod.fst := by
  unfold sortedKeys at h
  exact (List.mem_insertionSort _).mp h

theorem lookupVal_spaceFree (p : Payload) (k : Str)
    (hws : ∀ kv ∈ p, spaceFreeVal kv.2 = true) :
    spaceFreeVal (lookupVal p k) = true := by
  unfold lookupVal
  rcases hl : List.lookup k p with _ | v
  · rfl
  · obtain ⟨l1, l2, hdec, -⟩ := List.lookup_eq_some_iff.mp hl
    exact hws (k, v) (hdec ▸ List.mem_append.mpr (Or.inr (List.mem_cons_self _ _)))

/-- Claim C3: canonical serialization is a pure function of the payload's
field set — two payload dictionaries with the same bindings in any
insertion order canonicalize to identical bytes; the field order used is
lexicographically sorted; and the encoding itself introduces no whitespace
(for payloads whose keys and string values carry none, the output contains
no space; all other whitespace is escaped). -/
theorem c3_canonicalization (p1 p2 : Payload) (hperm : List.Perm p1 p2)
    (hnd : (p1.map Prod.fst).Nodup) :
    canonical_bytes p1 = canonical_bytes p2 ∧
    List.Sorted (· ≤ ·) (sortedKeys p1) ∧
    ((∀ kv ∈ p1, (∀ c ∈ kv.1, c ≠ ' ') ∧ spaceFreeVal kv.2 = true) →
      ∀ m, canonical_bytes p1 = some m → ∀ c ∈ m, c ≠ ' ') := by
  refine ⟨canonical_bytes_perm p1 p2 hperm hnd,
    List.sorted_insertionSort _ _, ?_⟩
  intro hws m hm c hc
  unfold canonical_bytes at hm
  rcases hps : encPieces p1 (sortedKeys p1) with _ | ps
  · rw [hps] at hm
    exact Option.noConfusion hm
  · rw [hps] at hm
    have hm2 : lbrace :: joinComma ps ++ [rbrace] = m := by
      simpa using hm
    subst hm2
    have hnosp : ∀ x ∈ ps, ∀ d ∈ x, d ≠ ' ' := by
      refine encPieces_no_space p1 (sortedKeys p1) ?_ ?_ ps hps
      · intro k hk d hd
        obtain ⟨kv, hkv, hfst⟩ := List.mem_map.mp (sortedKeys_mem p1 k hk)
        exact (hws kv hkv).1 d (hfst ▸ hd)
      · intro k _
        exact lookupVal_spaceFree p1 k (fun kv hkv => (hws kv hkv).2)
    rcases List.mem_cons.mp hc with rfl | hc2
    · decide
    · rcases List.mem_append.mp hc2 with h3 | h4
      · rcases joinComma_mem ps c h3 with rfl | ⟨x, hx, hcx⟩
        · decide
        · exact hnosp x hx c hcx
      · rw [List.mem_singleton] at h4
        subst h4
        decide

/-- Witness for C3: two concrete two-field payloads, built in opposite
orders, canonicalize to identical bytes. -/
theorem c3_canonicalization_witness :
    canonical_bytes [("b".data, Jval.jint 1), ("a".data, Jval.jstr "x".data)] =
      canonical_bytes [("a".data, Jval.jstr "x".data), ("b".data, Jval.jint 1)] := by
  have h := c3_canonicalization
    [("b".data, Jval.jint 1), ("a".data, Jval.jstr "x".data)]
    [("a".data, Jval.jstr "x".data), ("b".data, Jval.jint 1)]
    (List.Perm.swap _ _ _) (by decide)
  exact h.1

theorem digitVal_digitChar (d : Nat) (h : d < 10) :
    digitVal (digitChar d) = d := by
  unfold digitVal digitChar
  rw [toNat_ofNat_valid _ (Or.inl (by omega))]
  omega

theorem digitsVal_natDigits (n : Nat) : digitsVal (natDigits n) = n := by
  induction n using Nat.strong_induction_on with
  | _ n ih =>
    rw [natDigits]
    by_cases h : n < 10
    · rw [dif_pos h]
      unfold digitsVal
      simp [digitVal_digitChar n h]
    · rw [dif_neg h]
      unfold digitsVal
      rw [List.foldl_append]
      have hrec := ih (n / 10) (Nat.div_lt_self (by omega) (by omega))
      unfold digitsVal at hrec
      rw [hrec]
      simp only [List.foldl_cons, List.foldl_nil,
        digitVal_digitChar (n % 10) (Nat.mod_lt _ (by omega))]
      omega

theorem natDigits_inj (a b : Nat) (h : natDigits a = natDigits b) : a = b := by
  have := congrArg digitsVal h
  rwa [digitsVal_natDigits, digitsVal_natDigits] at this

theorem fermat_pow (r s m : Nat) (hr : r.Prime) :
    m ^ (1 + (r - 1) * s) ≡ m [MOD r] := by
  by_cases hdvd : r ∣ m
  · have h0 : m ≡ 0 [MOD r] := (Nat.modEq_zero_iff_dvd).mpr hdvd
    calc m ^ (1 + (r - 1) * s)
        ≡ 0 ^ (1 + (r - 1) * s) [MOD r] := h0.pow _
      _ = 0 := zero_pow (by omega)
      _ ≡ m [MOD r] := h0.symm
  · have hco : m.Coprime r :=
      Nat.Coprime.symm ((Nat.Prime.coprime_iff_not_dvd hr).mpr hdvd)
    have heuler : m ^ (r - 1) ≡ 1 [MOD r] := by
      have h2 := Nat.ModEq.pow_totient hco
      rwa [Nat.totient_prime hr] at h2
    calc m ^ (1 + (r - 1) * s)
        = m * (m ^ (r - 1)) ^ s := by rw [pow_add, pow_one, pow_mul]
      _ ≡ m * 1 ^ s [MOD r] := (heuler.pow s).mul_left m
      _ = m := by rw [one_pow, mul_one]

theorem rsa_core (p q e d m : Nat) (hp : p.Prime) (hq : q.Prime)
    (hpq : p ≠ q) (hed : e * d ≡ 1 [MOD (p - 1) * (q - 1)]) :
    m ^ (e * d) ≡ m [MOD p * q] := by
  have hp2 := hp.two_le
  have hq2 := hq.two_le
  have hphi : 2 ≤ (p - 1) * (q - 1) := by
    rcases Nat.lt_or_ge p q with h | h
    · have h1 : 1 ≤ p - 1 := by omega
      have h2 : 2 ≤ q - 1 := by omega
      calc 2 = 1 * 2 := by norm_num
        _ ≤ (p - 1) * (q - 1) := Nat.mul_le_mul h1 h2
    · have hlt : q < p := lt_of_le_of_ne h (fun hEq => hpq hEq.symm)
      have h1 : 2 ≤ p - 1 := by omega
      have h2 : 1 ≤ q - 1 := by omega
      calc 2 = 2 * 1 := by norm_num
        _ ≤ (p - 1) * (q - 1) := Nat.mul_le_mul h1 h2
  have hed1 : 1 ≤ e * d := by
    rcases Nat.eq_zero_or_pos (e * d) with h0 | h1
    · exfalso
      have h1mod : 1 % ((p - 1) * (q - 1)) = 1 := Nat.mod_eq_of_lt (by omega)
      have hc := hed
      unfold Nat.ModEq at hc
      rw [h0, Nat.zero_mod, h1mod] at hc
      exact absurd hc.symm one_ne_zero
    · exact h1
  obtain ⟨t, ht⟩ := (Nat.modEq_iff_dvd' hed1).mp hed.symm
  have hedeq : e * d = 1 + (p - 1) * ((q - 1) * t) := by
    have h2 : e * d = (p - 1) * (q - 1) * t + 1 := by omega
    rw [h2]; ring
  have hedeq2 : e * d = 1 + (q - 1) * ((p - 1) * t) := by
    have h2 : e * d = (p - 1) * (q - 1) * t + 1 := by omega
    rw [h2]; ring
  have hP : m ^ (e * d) ≡ m [MOD p] := by
    rw [hedeq]; exact fermat_pow p _ m hp
  have hQ : m ^ (e * d) ≡ m [MOD q] := by
    rw [hedeq2]; exact fermat_pow q _ m hq
  exact (Nat.modEq_and_modEq_iff_modEq_mul
    ((Nat.coprime_primes hp hq).mpr hpq)).mp ⟨hP, hQ⟩

theorem rsa_verify_sign (e d n m : Nat) (hcore : m ^ (e * d) ≡ m [MOD n])
    (hm : m < n) : (m ^ d % n) ^ e % n = m := by
  rw [← Nat.pow_mod, ← pow_mul]
  have h2 : m ^ (d * e) ≡ m [MOD n] := by rwa [mul_comm d e]
  unfold Nat.ModEq at h2
  rw [h2, Nat.mod_eq_of_lt hm]

theorem decB64c_getD : ∀ i < 64, decB64c (b64chars.getD i 'A') = some i := by
  decide

theorem encB64_ne_nil (n : Nat) : encB64 n ≠ [] := by
  rw [encB64]
  by_cases h : n < 64
  · rw [dif_pos h]
    simp
  · rw [dif_neg h]
    simp

theorem decodeB64_encB64 (n : Nat) : decodeB64 (encB64 n) = some n := by
  induction n using Nat.strong_induction_on with
  | _ n ih =>
    rw [encB64]
    by_cases h : n < 64
    · rw [dif_pos h]
      exact decB64c_getD n h
    · rw [dif_neg h]
      obtain ⟨c, r, hcr⟩ :=
        List.exists_cons_of_ne_nil (encB64_ne_nil (n / 64))
      rw [hcr]
      have hrec := ih (n / 64) (Nat.div_lt_self (by omega) (by omega))
      rw [hcr] at hrec
      show (match decB64c (b64chars.getD (n % 64) 'A'), decodeB64 (c :: r) with
        | some i, some rr => some (i + 64 * rr)
        | _, _ => none) = some n
      rw [hrec, decB64c_getD (n % 64) (Nat.mod_lt _ (by omega))]
      simp only [Option.some.injEq]
      omega

theorem comma_not_mem_natDigits (n : Nat) : ',' ∉ natDigits n := by
  intro h
  have hdig := natDigits_isDig n _ h
  exact absurd hdig (by decide)

theorem parsePem_pemOfPub (e n : Nat) : parsePem (pemOfPub e n) = some (e, n) := by
  unfold parsePem pemOfPub
  rw [show pemHeader ++ natDigits e ++ ',' :: natDigits n =
    pemHeader ++ (natDigits e ++ ',' :: natDigits n) from by
      rw [List.append_assoc]]
  rw [List.take_left, List.drop_left, if_pos rfl]
  rw [splitFirstChar_not_mem ',' _ _ (comma_not_mem_natDigits e)]
  show (if natDigits e ≠ [] ∧ List.all (natDigits e) isDig = true ∧
      natDigits n ≠ [] ∧ List.all (natDigits n) isDig = true then
    some (digitsVal (natDigits e), digitsVal (natDigits n)) else none) =
    some (e, n)
  rw [if_pos ⟨natDigits_ne_nil e,
    List.all_eq_true.mpr (natDigits_isDig e), natDigits_ne_nil n,
    List.all_eq_true.mpr (natDigits_isDig n)⟩]
  rw [digitsVal_natDigits, digitsVal_natDigits]

theorem unhexDigit_hexDigit (i : Nat) (h : i < 16) :
    unhexDigit (hexDigit i) = some i := by
  unfold hexDigit unhexDigit
  by_cases h10 : i < 10
  · rw [if_pos h10]
    have ht : (Char.ofNat (48 + i)).toNat = 48 + i :=
      toNat_ofNat_valid _ (Or.inl (by omega))
    rw [ht, if_pos (by omega)]
    simp only [Option.some.injEq]
    omega
  · rw [if_neg h10]
    have ht : (Char.ofNat (87 + i)).toNat = 87 + i :=
      toNat_ofNat_valid _ (Or.inl (by omega))
    rw [ht, if_neg (by omega), if_pos (by omega)]
    simp only [Option.some.injEq]
    omega

theorem unhex4_hex4 (x : Nat) (h : x < 65536) :
    unhex4 (hexDigit (x / 4096 % 16)) (hexDigit (x / 256 % 16))
      (hexDigit (x / 16 % 16)) (hexDigit (x % 16)) = some x := by
  unfold unhex4
  rw [unhexDigit_hexDigit _ (Nat.mod_lt _ (by omega)),
    unhexDigit_hexDigit _ (Nat.mod_lt _ (by omega)),
    unhexDigit_hexDigit _ (Nat.mod_lt _ (by omega)),
    unhexDigit_hexDigit _ (Nat.mod_lt _ (by omega))]
  simp only [Option.some.injEq]
  omega

theorem unescU_spec (x : Nat) (h : x < 65536) (r : Str) :
    unescU (hex4 x ++ r) =
      if 55296 ≤ x ∧ x < 56320 then unescLow x r
      else some (Char.ofNat x, r) := by
  simp only [hex4, List.cons_append, List.nil_append, unescU, unhex4_hex4 x h]

theorem unescLow_spec (x y : Nat) (hy : y < 65536) (r : Str) :
    unescLow x ('\\' :: 'u' :: (hex4 y ++ r)) =
      if 56320 ≤ y ∧ y < 57344 then
        some (Char.ofNat (65536 + (x - 55296) * 1024 + (y - 56320)), r)
      else none := by
  simp only [hex4, List.cons_append, List.nil_append, unescLow,
    unhex4_hex4 y hy]
  rw [if_pos ⟨trivial, trivial⟩]

theorem unescChar_u (rest : Str) :
    unescChar ('\\' :: 'u' :: rest) = unescU rest := rfl

theorem char_valid_nat (c : Char) :
    c.toNat < 55296 ∨ (57343 < c.toNat ∧ c.toNat < 1114112) := by
  have hv := c.valid
  unfold UInt32.isValidChar Nat.isValidChar at hv
  exact hv

theorem unesc_escChar (c : Char) (r : Str) :
    unescChar (escChar c ++ r) = some (c, r) := by
  have hv := char_valid_nat c
  unfold escChar
  split_ifs with h1 h2 h3 h4 h5 h6 h7 h8 h9
  · subst h1; rfl
  · subst h2; rfl
  · have hc : c = Char.ofNat 8 := by rw [← Char.ofNat_toNat c, h3]
    rw [hc]; rfl
  · have hc : c = Char.ofNat 12 := by rw [← Char.ofNat_toNat c, h4]
    rw [hc]; rfl
  · have hc : c = Char.ofNat 10 := by rw [← Char.ofNat_toNat c, h5]
    rw [hc]; rfl
  · have hc : c = Char.ofNat 13 := by rw [← Char.ofNat_toNat c, h6]
    rw [hc]; rfl
  · have hc : c = Char.ofNat 9 := by rw [← Char.ofNat_toNat c, h7]
    rw [hc]; rfl
  · show unescChar (c :: r) = some (c, r)
    simp only [unescChar]
    rw [if_neg h2]
  · show unescChar ('\\' :: 'u' :: (hex4 c.toNat ++ r)) = some (c, r)
    rw [unescChar_u, unescU_spec c.toNat h9 r, if_neg (by omega),
      Char.ofNat_toNat]
  · have h16 : 65536 ≤ c.toNat := by omega
    have hlt : c.toNat < 1114112 := by omega
    show unescChar ('\\' :: 'u' ::
      ((hex4 (55296 + (c.toNat - 65536) / 1024) ++
        ('\\' :: 'u' :: hex4 (56320 + (c.toNat - 65536) % 1024))) ++ r)) =
      some (c, r)
    rw [List.append_assoc, unescChar_u,
      unescU_spec (55296 + (c.toNat - 65536) / 1024) (by omega),
      if_pos ⟨by omega, by omega⟩]
    rw [show ('\\' :: 'u' :: hex4 (56320 + (c.toNat - 65536) % 1024)) ++ r =
      '\\' :: 'u' :: (hex4 (56320 + (c.toNat - 65536) % 1024) ++ r) from rfl]
    rw [unescLow_spec _ _ (by omega), if_pos ⟨by omega, by omega⟩]
    rw [show 65536 + (55296 + (c.toNat - 65536) / 1024 - 55296) * 1024 +
      (56320 + (c.toNat - 65536) % 1024 - 56320) = c.toNat by omega]
    rw [Char.ofNat_toNat]

theorem escChar_ne_nil (c : Char) : escChar c ≠ [] := by
  unfold escChar
  split_ifs <;> simp

theorem escapeStr_inj (s1 s2 : Str) (h : escapeStr s1 = escapeStr s2) :
    s1 = s2 := by
  induction s1 generalizing s2 with
  | nil =>
    rcases s2 with _ | ⟨b, bs⟩
    · rfl
    · exfalso
      unfold escapeStr at h
      simp only [List.flatMap_nil, List.flatMap_cons] at h
      exact escChar_ne_nil b (List.append_eq_nil.mp h.symm).1
  | cons a as ih =>
    rcases s2 with _ | ⟨b, bs⟩
    · exfalso
      unfold escapeStr at h
      simp only [List.flatMap_nil, List.flatMap_cons] at h
      exact escChar_ne_nil a (List.append_eq_nil.mp h).1
    · unfold escapeStr at h
      simp only [List.flatMap_cons] at h
      have h1 : unescChar (escChar a ++ as.flatMap escChar) =
          unescChar (escChar b ++ bs.flatMap escChar) := by rw [h]
      rw [unesc_escChar, unesc_escChar] at h1
      simp only [Option.some.injEq, Prod.mk.injEq] at h1
      rw [h1.1, ih bs h1.2]

theorem natDigits_head_digit (m : Nat) :
    ∃ hd tl, natDigits m = hd :: tl ∧ isDig hd = true := by
  obtain ⟨hd, tl, hcons⟩ := List.exists_cons_of_ne_nil (natDigits_ne_nil m)
  exact ⟨hd, tl, hcons, natDigits_isDig m hd (hcons ▸ List.mem_cons_self hd tl)⟩

theorem natDigits_head_not (m : Nat) (c : Char) (rest : Str)
    (hc : isDig c = false) (h : natDigits m = c :: rest) : False := by
  obtain ⟨hd, tl, hcons, hdig⟩ := natDigits_head_digit m
  rw [hcons] at h
  have hhd : hd = c := (List.cons_eq_cons.mp h).1
  rw [hhd, hc] at hdig
  exact Bool.false_ne_true hdig

theorem intRepr_inj (a b : Int) (h : intRepr a = intRepr b) : a = b := by
  rcases a with m | m <;> rcases b with k | k
  · exact congrArg Int.ofNat (natDigits_inj _ _ h)
  · exact absurd (h : natDigits m = '-' :: natDigits (k + 1))
      (fun hh => natDigits_head_not m '-' _ (by decide) hh)
  · exact absurd (h.symm : natDigits k = '-' :: natDigits (m + 1))
      (fun hh => natDigits_head_not k '-' _ (by decide) hh)
  · have h2 : natDigits (m + 1) = natDigits (k + 1) :=
      (List.cons_eq_cons.mp h).2
    have hmk := natDigits_inj _ _ h2
    have hmk2 : m = k := by omega
    rw [hmk2]

theorem isDig_ne_quote (c : Char) (h : isDig c = true) : ¬ c = '"' := by
  intro hEq
  subst hEq
  exact absurd h (by decide)

theorem encJval_head_class (v : Jval) (s : Str) (h : encJval v = some s) :
    ∃ hd tl, s = hd :: tl ∧ headClass hd = jtag v := by
  rcases v with s0 | n | b | _ | _
  · simp only [encJval, Option.some.injEq] at h
    exact ⟨'"', _, h.symm, rfl⟩
  · simp only [encJval, Option.some.injEq] at h
    rcases n with m | m
    · obtain ⟨hd, tl, hcons, hdig⟩ := natDigits_head_digit m
      refine ⟨hd, tl, by rw [← h]; exact hcons, ?_⟩
      unfold headClass
      rw [if_neg (isDig_ne_quote hd hdig), if_pos (Or.inl hdig)]
      rfl
    · exact ⟨'-', _, by rw [← h]; rfl, rfl⟩
  · rcases b with _ | _
    · simp only [encJval, Option.some.injEq] at h
      exact ⟨'f', _, h.symm, by decide⟩
    · simp only [encJval, Option.some.injEq] at h
      exact ⟨'t', _, h.symm, by decide⟩
  · simp only [encJval, Option.some.injEq] at h
    exact ⟨'n', _, h.symm, by decide⟩
  · exact Option.noConfusion h

theorem encJval_inj (v1 v2 : Jval) (s : Str) (h1 : encJval v1 = some s)
    (h2 : encJval v2 = some s) : v1 = v2 := by
  obtain ⟨hd1, tl1, hs1, hc1⟩ := encJval_head_class v1 s h1
  obtain ⟨hd2, tl2, hs2, hc2⟩ := encJval_head_class v2 s h2
  have hhd : hd1 = hd2 := by
    rw [hs1] at hs2
    exact (List.cons_eq_cons.mp hs2).1
  have htag : jtag v1 = jtag v2 := by rw [← hc1, hhd, hc2]
  clear hc1 hc2 hs1 hs2 hhd
  rcases v1 with s1 | n1 | b1 | _ | _ <;> rcases v2 with s2 | n2 | b2 | _ | _ <;>
    (try rcases b1 with _ | _) <;> (try rcases b2 with _ | _) <;>
    simp only [jtag] at htag <;> (try omega) <;> (try rfl)
  · -- jstr / jstr
    simp only [encJval, Option.some.injEq] at h1 h2
    have heq := h1.trans h2.symm
    have htl := (List.cons_eq_cons.mp heq).2
    have hesc := List.append_cancel_right htl
    rw [escapeStr_inj s1 s2 hesc]
  · -- jint / jint
    simp only [encJval, Option.some.injEq] at h1 h2
    have heq := h1.trans h2.symm
    rw [intRepr_inj n1 n2 heq]

theorem setField_keys (p : Payload) (k : Str) (v : Jval) :
    (setField p k v).map Prod.fst = p.map Prod.fst := by
  unfold setField
  rw [List.map_map]
  refine List.map_congr_left ?_
  intro kv _
  by_cases h : kv.1 = k
  · simp [h]
  · simp [h]

theorem lookup_setField_ne (p : Payload) (k j : Str) (v : Jval) (hne : j ≠ k) :
    List.lookup j (setField p k v) = List.lookup j p := by
  induction p with
  | nil => rfl
  | cons kv rest ih =>
    obtain ⟨a, b⟩ := kv
    show List.lookup j ((if a = k then (a, v) else (a, b)) :: setField rest k v)
        = List.lookup j ((a, b) :: rest)
    by_cases hak : a = k
    · rw [if_pos hak]
      simp only [List.lookup]
      rw [show (j == a) = false from beq_eq_false_iff_ne.mpr (hak ▸ hne)]
      exact ih
    · rw [if_neg hak]
      simp only [List.lookup]
      cases hja : j == a
      · exact ih
      · rfl

theorem lookup_setField_self (p : Payload) (k : Str) (v : Jval)
    (hk : k ∈ p.map Prod.fst) : List.lookup k (setField p k v) = some v := by
  induction p with
  | nil => cases hk
  | cons kv rest ih =>
    obtain ⟨a, b⟩ := kv
    show List.lookup k ((if a = k then (a, v) else (a, b)) :: setField rest k v)
        = some v
    by_cases hak : a = k
    · rw [if_pos hak]
      simp only [List.lookup]
      rw [show (k == a) = true from beq_iff_eq.mpr hak.symm]
    · have hk2 : k ∈ rest.map Prod.fst := by
        rcases List.mem_cons.mp hk with h | h
        · exact absurd h.symm hak
        · exact h
      rw [if_neg hak]
      simp only [List.lookup]
      rw [show (k == a) = false from beq_eq_false_iff_ne.mpr
        (fun h => hak h.symm)]
      exact ih hk2

theorem sortedKeys_setField (p : Payload) (k : Str) (v : Jval) :
    sortedKeys (setField p k v) = sortedKeys p := by
  unfold sortedKeys
  rw [setField_keys]

theorem encPieces_cons_inv (p : Payload) (k : Str) (ks : List Str)
    (ps : List Str) (h : encPieces p (k :: ks) = some ps) :
    ∃ v rest, encJval (lookupVal p k) = some v ∧ encPieces p ks = some rest ∧
      ps = encPair k v :: rest := by
  simp only [encPieces] at h
  cases hv : encJval (lookupVal p k) with
  | none =>
    rw [hv] at h
    cases hr : encPieces p ks <;> rw [hr] at h <;> exact absurd h (by simp)
  | some v =>
    rw [hv] at h
    cases hr : encPieces p ks with
    | none => rw [hr] at h; exact absurd h (by simp)
    | some rest =>
      rw [hr] at h
      exact ⟨v, rest, rfl, rfl, (Option.some_inj.mp h).symm⟩

theorem encPieces_append_inv (p : Payload) (L1 L2 : List Str) (ps : List Str)
    (h : encPieces p (L1 ++ L2) = some ps) :
    ∃ ps1 ps2, encPieces p L1 = some ps1 ∧ encPieces p L2 = some ps2 ∧
      ps = ps1 ++ ps2 := by
  induction L1 generalizing ps with
  | nil => exact ⟨[], ps, rfl, h, rfl⟩
  | cons k ks ih =>
    rw [List.cons_append] at h
    obtain ⟨v, rest, hv, hrest, hps⟩ := encPieces_cons_inv p k (ks ++ L2) ps h
    obtain ⟨ps1, ps2, h1, h2, h3⟩ := ih rest hrest
    refine ⟨encPair k v :: ps1, ps2, ?_, h2, by rw [hps, h3]; rfl⟩
    simp only [encPieces, hv, h1]

theorem joinComma_cons (a : Str) (l : List Str) (h : l ≠ []) :
    joinComma (a :: l) = a ++ ',' :: joinComma l := by
  cases l with
  | nil => exact absurd rfl h
  | cons b bs => rfl

theorem joinComma_inj_at (A : List Str) (x y : Str) (B : List Str)
    (h : joinComma (A ++ x :: B) = joinComma (A ++ y :: B)) : x = y := by
  induction A with
  | nil =>
    cases B with
    | nil => exact h
    | cons b bs =>
      rw [List.nil_append, List.nil_append,
        joinComma_cons x (b :: bs) (by simp),
        joinComma_cons y (b :: bs) (by simp)] at h
      exact List.append_cancel_right h
  | cons a A2 ih =>
    rw [List.cons_append, List.cons_append,
      joinComma_cons a (A2 ++ x :: B) (by simp),
      joinComma_cons a (A2 ++ y :: B) (by simp)] at h
    have h2 := List.append_cancel_left h
    injection h2 with _ h3
    exact ih h3

theorem encPair_inj_val (k : Str) (v1 v2 : Str)
    (h : encPair k v1 = encPair k v2) : v1 = v2 := by
  unfold encPair at h
  injection h with _ h2
  have h3 := List.append_cancel_left h2
  injection h3 with _ h4
  simpa using h4

theorem canonical_setField_ne (p : Payload) (k : Str) (v' : Jval)
    (msg msg2 : Str)
    (hnd : (p.map Prod.fst).Nodup)
    (hk : k ∈ p.map Prod.fst)
    (hv : v' ≠ lookupVal p k)
    (hmsg : canonical_bytes p = some msg)
    (hmsg2 : canonical_bytes (setField p k v') = some msg2) :
    msg2 ≠ msg := by
  unfold canonical_bytes at hmsg hmsg2
  rw [sortedKeys_setField] at hmsg2
  obtain ⟨ps, hps, hmsgEq⟩ := Option.map_eq_some'.mp hmsg
  obtain ⟨qs, hqs, hmsg2Eq⟩ := Option.map_eq_some'.mp hmsg2
  have hkS : k ∈ sortedKeys p := ((List.perm_insertionSort _ _).mem_iff).mpr hk
  have hndS : (sortedKeys p).Nodup :=
    ((List.perm_insertionSort _ _).nodup_iff).mpr hnd
  obtain ⟨L1, L2, hS⟩ := List.append_of_mem hkS
  rw [hS] at hndS
  rw [List.nodup_append] at hndS
  obtain ⟨_, hnd2, hdisj⟩ := hndS
  have hkL1 : k ∉ L1 := fun hmem => hdisj hmem (List.mem_cons_self _ _)
  have hkL2 : k ∉ L2 := (List.nodup_cons.mp hnd2).1
  rw [hS] at hps hqs
  obtain ⟨ps1, psR, hps1, hpsR, hpsEq⟩ :=
    encPieces_append_inv p L1 (k :: L2) ps hps
  obtain ⟨v0, ps2, hv0, hps2, hpsREq⟩ := encPieces_cons_inv p k L2 psR hpsR
  obtain ⟨qs1, qsR, hqs1, hqsR, hqsEq⟩ :=
    encPieces_append_inv _ L1 (k :: L2) qs hqs
  obtain ⟨v1, qs2, hv1, hqs2, hqsREq⟩ := encPieces_cons_inv _ k L2 qsR hqsR
  have hcong1 : encPieces (setField p k v') L1 = encPieces p L1 :=
    encPieces_congr _ _ L1 (fun j hj => by
      unfold lookupVal
      rw [lookup_setField_ne p k j v' (fun hEq => hkL1 (hEq ▸ hj))])
  have hcong2 : encPieces (setField p k v') L2 = encPieces p L2 :=
    encPieces_congr _ _ L2 (fun j hj => by
      unfold lookupVal
      rw [lookup_setField_ne p k j v' (fun hEq => hkL2 (hEq ▸ hj))])
  rw [hcong1] at hqs1
  rw [hcong2] at hqs2
  have e1 : qs1 = ps1 := Option.some_inj.mp (hps1.symm.trans hqs1) |>.symm
  have e2 : qs2 = ps2 := Option.some_inj.mp (hps2.symm.trans hqs2) |>.symm
  have hlv : lookupVal (setField p k v') k = v' := by
    unfold lookupVal
    rw [lookup_setField_self p k v' hk]
    rfl
  rw [hlv] at hv1
  have hvne : v1 ≠ v0 := by
    intro hEq
    rw [hEq] at hv1
    exact hv (encJval_inj v' (lookupVal p k) v0 hv1 hv0)
  intro hcontra
  rw [← hmsgEq, ← hmsg2Eq] at hcontra
  injection hcontra with _ hcontra2
  have hjoin := List.append_cancel_right hcontra2
  rw [hpsEq, hpsREq, hqsEq, hqsREq, e1, e2] at hjoin
  have := joinComma_inj_at ps1 (encPair k v1) (encPair k v0) ps2 hjoin
  exact hvne (encPair_inj_val k v1 v0 this)

theorem c2_sign_then_verify (H mac : Str → Nat) (p q e d : Nat)
    (payload : Payload) (k : Str) (v' : Jval) (msg msg2 : Str) (b : SigBundle)
    (hp : p.Prime) (hq : q.Prime) (hpq : p ≠ q)
    (hed : e * d ≡ 1 [MOD (p - 1) * (q - 1)])
    (hnd : (payload.map Prod.fst).Nodup)
    (hmsg : canonical_bytes payload = some msg)
    (hsig : sign_and_mac H mac d (p * q) payload = some b)
    (hH : H msg < p * q)
    (hk : k ∈ payload.map Prod.fst)
    (hv : v' ≠ lookupVal payload k)
    (hmsg2 : canonical_bytes (setField payload k v') = some msg2)
    (hcol : H msg2 ≠ H msg) :
    verify_rsa H (pemOfPub e (p * q)) payload b.signature = true ∧
    msg2 ≠ msg ∧
    verify_rsa H (pemOfPub e (p * q)) (setField payload k v') b.signature
      = false := by
  have hb : b = ⟨encB64 (mac msg), encB64 (H msg ^ d % (p * q))⟩ := by
    unfold sign_and_mac at hsig
    rw [hmsg] at hsig
    exact (Option.some_inj.mp hsig).symm
  have hrsa : (H msg ^ d % (p * q)) ^ e % (p * q) = H msg :=
    rsa_verify_sign e d (p * q) (H msg)
      (rsa_core p q e d (H msg) hp hq hpq hed) hH
  refine ⟨?_, canonical_setField_ne payload k v' msg msg2 hnd hk hv hmsg hmsg2,
    ?_⟩
  · simp only [verify_rsa, parsePem_pemOfPub, hb, decodeB64_encB64, hmsg]
    rw [hrsa]
    exact beq_self_eq_true _
  · simp only [verify_rsa, parsePem_pemOfPub, hb, decodeB64_encB64, hmsg2]
    rw [hrsa]
    exact beq_eq_false_iff_ne.mpr (fun hEq => hcol hEq.symm)

theorem c2_sign_then_verify_witness :
    verify_rsa (fun l => l.length % 33) (pemOfPub 3 33)
      [("a".data, Jval.jstr "x".data)]
      ((sign_and_mac (fun l => l.length % 33) (fun _ => 0) 7 33
        [("a".data, Jval.jstr "x".data)]).getD ⟨[], []⟩).signature = true ∧
    verify_rsa (fun l => l.length % 33) (pemOfPub 3 33)
      (setField [("a".data, Jval.jstr "x".data)] "a".data
        (Jval.jstr "yy".data))
      ((sign_and_mac (fun l => l.length % 33) (fun _ => 0) 7 33
        [("a".data, Jval.jstr "x".data)]).getD ⟨[], []⟩).signature
      = false := by
  obtain ⟨h1, _h2, h3⟩ := c2_sign_then_verify (fun l => l.length % 33)
    (fun _ => 0) 3 11 3 7 [("a".data, Jval.jstr "x".data)] "a".data
    (Jval.jstr "yy".data)
    ((canonical_bytes [("a".data, Jval.jstr "x".data)]).getD [])
    ((canonical_bytes (setField [("a".data, Jval.jstr "x".data)] "a".data
      (Jval.jstr "yy".data))).getD [])
    ((sign_and_mac (fun l => l.length % 33) (fun _ => 0) 7 33
      [("a".data, Jval.jstr "x".data)]).getD ⟨[], []⟩)
    (by norm_num) (by norm_num) (by decide) (by decide) (by decide)
    (by rfl) (by rfl) (by decide) (by decide) (by decide) (by rfl) (by decide)
  exact ⟨h1, h3⟩
